import Mathlib

/-!
# Hidden-line surface plotter (`main.cc`)

A shallow embedding of `main.cc`: the `Image` structure with the functions
`image_init`, `image_draw_pixel` and `image_reset_horizon`, the encoders
`image_save_tga` and `image_save_bmp`, the scalar field `sinc` / `myfunc` and
the projector `convert_isometry`; followed by the properties of the
horizon-occlusion algorithm, of the two file layouts, and of the scalar field
and the projector in the real-number model.

Conventions of the embedding.

* A C++ `int` is a mathematical integer (`Int`). The two `int` computations
  of the canvas code, the product `width * height` of `image_init` and the
  index `y * width + x` of `image_draw_pixel`, are checked against the range
  of `int`: a signed overflow (undefined behaviour in C++) is the result
  `none`.
* A `uint32_t` colour is a natural number.
* A `std::vector` is a `List`; an access `v[i]` outside the vector (undefined
  behaviour) and a `resize` that throws are the result `none`.
-/

namespace Horizon

/-- Largest value of a C++ `int` (32 bits). -/
def INT_MAX : Int := 2147483647

/-- Smallest value of a C++ `int` (32 bits). -/
def INT_MIN : Int := -2147483648

/-- The fields of `struct Image`. -/
structure Image where
  pixels : List Nat
  horizon : List Int
  width : Int
  height : Int
deriving DecidableEq, Repr

/-- An `Image image;` as `main` declares it: both vectors empty. The two `int`
fields are indeterminate in C++; `image_init` overwrites them. -/
def Image.fresh : Image := { pixels := [], horizon := [], width := 0, height := 0 }

/-- The effect of `std::vector::resize(n)`: the first `n` elements are kept and
the vector is padded with value-initialised elements `d` up to length `n`. -/
def vector_resize {α : Type} (v : List α) (n : Nat) (d : α) : List α :=
  v.take n ++ List.replicate (n - v.length) d

/-- The function `image_init` of `main.cc`.

`width * height` is an `int` product: outside the range of `int` it is a signed
overflow. The argument of `resize` is converted to `size_t`, so a negative
value becomes a length above `max_size()` and `resize` throws. -/
def image_init (image : Image) (width height : Int) (background : Nat) : Option Image :=
  if width * height < INT_MIN ∨ INT_MAX < width * height then none
  else if width * height < 0 then none
  else if width < 0 then none
  else
    some { width := width
           height := height
           pixels := (vector_resize image.pixels (width * height).toNat 0).map (fun _ => background)
           horizon := vector_resize image.horizon width.toNat 0 }

/-- The function `image_draw_pixel` of `main.cc`.

The result is `none` where the C++ code has undefined behaviour: `horizon[x]`
read outside the horizon vector, the `int` index `y * width + x` above
`INT_MAX`, or the pixel written outside the pixel vector. (Under the guards
`0 <= x < width` and `0 <= y < height` the index is never negative.) -/
def image_draw_pixel (image : Image) (x y : Int) (color : Nat) : Option Image :=
  if x < 0 ∨ x ≥ image.width then some image
  else
    match image.horizon[x.toNat]? with
    | none => none
    | some h =>
      if y ≥ h then some image
      else if y < 0 ∨ y ≥ image.height then
        some { image with horizon := image.horizon.set x.toNat y }
      else if INT_MAX < y * image.width + x then none
      else if (y * image.width + x).toNat < image.pixels.length then
        some { image with
                 horizon := image.horizon.set x.toNat y
                 pixels := image.pixels.set (y * image.width + x).toNat color }
      else none

/-- The function `image_reset_horizon` of `main.cc`. -/
def image_reset_horizon (image : Image) : Image :=
  { image with horizon := image.horizon.map (fun _ => image.height) }

/-- A canvas: an `Image` in a state that `image_init` establishes and that
`image_draw_pixel` and `image_reset_horizon` keep. The pixel buffer has
`width * height` entries, the horizon has `width` entries, and the product
`width * height`, which `image_init` computes as an `int`, is at most
`INT_MAX`. (The state after `image_init(image, 0, height, c)` with a negative
`height` is included: it has no pixel and no column.) -/
def Image.IsCanvas (image : Image) : Prop :=
  0 ≤ image.width ∧ image.width * image.height ≤ INT_MAX ∧
  image.pixels.length = (image.width * image.height).toNat ∧
  image.horizon.length = image.width.toNat

instance (image : Image) : Decidable image.IsCanvas := by
  unfold Image.IsCanvas; infer_instance

/-- A finite sequence of `image_draw_pixel` calls, one after the other on the
same image, as the loops of `main` issue them; each call is `(x, y, color)`.
The sequence stops with `none` at the first call that has no result. -/
def draw_calls (image : Image) : List (Int × Int × Nat) → Option Image
  | [] => some image
  | (x, y, color) :: rest =>
    match image_draw_pixel image x y color with
    | none => none
    | some image1 => draw_calls image1 rest

/-- One sweep of `main`: the projected points are drawn in order, all with the
same colour. -/
def sweep (image : Image) (points : List (Int × Int)) (color : Nat) : Option Image :=
  draw_calls image (points.map (fun p => (p.1, p.2, color)))

/-- The running column minimum: the least of `start` and of the rows `y` of
the calls `(x, y, color)` whose column `x` is `c`, taken in call order. -/
def column_minimum (start c : Int) : List (Int × Int × Nat) → Int
  | [] => start
  | (x, y, _) :: rest => column_minimum (if x = c then min start y else start) c rest

/-- The shape predicate on an `Image`: the pixel buffer has `width * height`
entries, the horizon has `width` entries, and neither dimension is negative. -/
def Image.Shape (image : Image) : Prop :=
  (image.pixels.length : Int) = image.width * image.height ∧
  (image.horizon.length : Int) = image.width ∧
  0 ≤ image.width ∧ 0 ≤ image.height

instance (image : Image) : Decidable image.Shape := by
  unfold Image.Shape; infer_instance

/-! ### The image encoders

The encoders write the object representation of packed structures and of the
pixel buffer to a file. The embedding returns the bytes written, in order, on
a little-endian target (the byte order the file layouts require); a byte is a
natural number below 256. Opening and writing the file are taken to succeed.
A conversion of an `int` or a `size_t` to an unsigned type is the value modulo
`2^16` or `2^32`, as C++ defines it; the negation `-height` is taken in the
integers before that conversion, which gives the 32-bit pattern of
two's-complement negation for every `int`. -/

/-- Conversion to `uint16_t`. -/
def to_uint16 (v : Int) : Nat := (v % 65536).toNat

/-- Conversion to `uint32_t`. -/
def to_uint32 (v : Int) : Nat := (v % 4294967296).toNat

/-- The byte of a `uint8_t`. -/
def uint8_bytes (v : Nat) : List Nat := [v % 256]

/-- The two bytes of a `uint16_t`, least significant first. -/
def uint16_bytes (v : Nat) : List Nat := [v % 256, v / 256 % 256]

/-- The four bytes of a `uint32_t`, least significant first. -/
def uint32_bytes (v : Nat) : List Nat :=
  [v % 256, v / 256 % 256, v / 65536 % 256, v / 16777216 % 256]

/-- The bytes of the buffer of a `std::vector<uint32_t>`: the elements in
order, four bytes each. -/
def buffer_bytes : List Nat → List Nat
  | [] => []
  | p :: rest => uint32_bytes p ++ buffer_bytes rest

/-- The fields of `struct TGAHeader`. -/
structure TGAHeader where
  id_len : Nat
  pal_type : Nat
  img_type : Nat
  pal_desc : List Nat
  x_pos : Nat
  y_pos : Nat
  width : Nat
  height : Nat
  depth : Nat
  img_desc : Nat

/-- A value-initialised `TGAHeader header { }`: every field zero. -/
def TGAHeader.zero : TGAHeader :=
  { id_len := 0, pal_type := 0, img_type := 0, pal_desc := [0, 0, 0, 0, 0], x_pos := 0,
    y_pos := 0, width := 0, height := 0, depth := 0, img_desc := 0 }

/-- The object representation of a `TGAHeader` under `#pragma pack(push, 1)`:
the fields in declaration order, without padding. -/
def TGAHeader.bytes (h : TGAHeader) : List Nat :=
  uint8_bytes h.id_len ++ uint8_bytes h.pal_type ++ uint8_bytes h.img_type ++
  h.pal_desc.flatMap uint8_bytes ++ uint16_bytes h.x_pos ++ uint16_bytes h.y_pos ++
  uint16_bytes h.width ++ uint16_bytes h.height ++ uint8_bytes h.depth ++
  uint8_bytes h.img_desc

/-- The fields of `struct BMPFileHeader`. -/
structure BMPFileHeader where
  signature : Nat
  file_size : Nat
  reserved1 : Nat
  reserved2 : Nat
  image_offset : Nat

/-- The fields of `struct BMPInfoHeader`. -/
structure BMPInfoHeader where
  header_length : Nat
  width : Nat
  height : Nat
  planes : Nat
  depth : Nat
  compression : Nat
  image_length : Nat
  xppm : Nat
  yppm : Nat
  colors : Nat
  colors_important : Nat

/-- A value-initialised `BMPFileHeader bmpf { }`. -/
def BMPFileHeader.zero : BMPFileHeader :=
  { signature := 0, file_size := 0, reserved1 := 0, reserved2 := 0, image_offset := 0 }

/-- A value-initialised `BMPInfoHeader bmpi { }`. -/
def BMPInfoHeader.zero : BMPInfoHeader :=
  { header_length := 0, width := 0, height := 0, planes := 0, depth := 0, compression := 0,
    image_length := 0, xppm := 0, yppm := 0, colors := 0, colors_important := 0 }

/-- The object representation of a packed `BMPFileHeader`. -/
def BMPFileHeader.bytes (h : BMPFileHeader) : List Nat :=
  uint16_bytes h.signature ++ uint32_bytes h.file_size ++ uint16_bytes h.reserved1 ++
  uint16_bytes h.reserved2 ++ uint32_bytes h.image_offset

/-- The object representation of a packed `BMPInfoHeader`. -/
def BMPInfoHeader.bytes (h : BMPInfoHeader) : List Nat :=
  uint32_bytes h.header_length ++ uint32_bytes h.width ++ uint32_bytes h.height ++
  uint16_bytes h.planes ++ uint16_bytes h.depth ++ uint32_bytes h.compression ++
  uint32_bytes h.image_length ++ uint32_bytes h.xppm ++ uint32_bytes h.yppm ++
  uint32_bytes h.colors ++ uint32_bytes h.colors_important

/-- The value of `sizeof(BMPFileHeader)` under `#pragma pack(push, 1)`. -/
def sizeof_BMPFileHeader : Nat := 14

/-- The value of `sizeof(BMPInfoHeader)` under `#pragma pack(push, 1)`. -/
def sizeof_BMPInfoHeader : Nat := 40

/-- The value of `sizeof(image.pixels[0])`, the size of a `uint32_t`. -/
def sizeof_pixel : Nat := 4

/-- The function `image_save_tga` of `main.cc`: the bytes written to the file,
the header and then `pixels.size() * sizeof(pixels[0])` bytes from the address
`&image.pixels[0]` of the buffer (zero bytes when the vector is empty). -/
def image_save_tga (image : Image) : List Nat :=
  let header : TGAHeader :=
    { TGAHeader.zero with
        img_type := 2
        width := to_uint16 image.width
        height := to_uint16 image.height
        depth := 32
        img_desc := 0b00101000 }
  header.bytes ++ (buffer_bytes image.pixels).take (image.pixels.length * sizeof_pixel)

/-- The function `image_save_bmp` of `main.cc`: the bytes written to the file,
the two headers and then `bmpi.image_length` bytes from the address
`&image.pixels[0]` of the buffer (zero bytes when the vector is empty). -/
def image_save_bmp (image : Image) : List Nat :=
  let image_length := to_uint32 ((image.pixels.length * sizeof_pixel : Nat) : Int)
  let bmpi : BMPInfoHeader :=
    { BMPInfoHeader.zero with
        header_length := to_uint32 (sizeof_BMPInfoHeader : Nat)
        width := to_uint32 image.width
        height := to_uint32 (-image.height)
        depth := 32
        image_length := image_length
        planes := 1 }
  let image_offset := to_uint32 ((sizeof_BMPFileHeader + sizeof_BMPInfoHeader : Nat) : Int)
  let bmpf : BMPFileHeader :=
    { BMPFileHeader.zero with
        signature := to_uint16 (0x0001 * (Char.toNat 'B' : Int) + 0x0100 * (Char.toNat 'M' : Int))
        image_offset := image_offset
        file_size := to_uint32 ((image_offset + image_length : Nat) : Int) }
  bmpf.bytes ++ bmpi.bytes ++ (buffer_bytes image.pixels).take bmpi.image_length

/-! ### Decoding, as the round-trip property describes it -/

/-- The 16-bit little-endian value at offset `i` of a byte stream. -/
def le16_at (bytes : List Nat) (i : Nat) : Nat :=
  bytes.getD i 0 + 256 * bytes.getD (i + 1) 0

/-- The 32-bit little-endian value at offset `i` of a byte stream. -/
def le32_at (bytes : List Nat) (i : Nat) : Nat :=
  bytes.getD i 0 + 256 * bytes.getD (i + 1) 0 + 65536 * bytes.getD (i + 2) 0 +
    16777216 * bytes.getD (i + 3) 0

/-- A 32-bit value read as a signed (two's-complement) integer. -/
def signed32 (v : Nat) : Int :=
  if v < 2147483648 then (v : Int) else (v : Int) - 4294967296

/-- A byte stream read as 4-byte little-endian words; an incomplete last word
is dropped. -/
def words_le : List Nat → List Nat
  | b0 :: b1 :: b2 :: b3 :: rest =>
    (b0 + 256 * b1 + 65536 * b2 + 16777216 * b3) :: words_le rest
  | _ => []

/-- Decoding a TGA stream: the dimensions from the 16-bit header fields at
offsets 12 and 14, the pixels as 4-byte little-endian words after byte 18. -/
def tga_decode (bytes : List Nat) : Int × Int × List Nat :=
  ((le16_at bytes 12 : Nat), (le16_at bytes 14 : Nat), words_le (bytes.drop 18))

/-- Decoding a BMP stream: the width from the width field at offset 18, the
height as the negation of the signed height field at offset 22, the pixels as
4-byte little-endian words after the offset stored at offset 10. -/
def bmp_decode (bytes : List Nat) : Int × Int × List Nat :=
  ((le32_at bytes 18 : Nat), -signed32 (le32_at bytes 22),
    words_le (bytes.drop (le32_at bytes 10)))

/-- A 32768x32768 canvas, every pixel the background colour `0xff000000`,
with a reset horizon: `image_init` and `image_reset_horizon` yield it, as
`32768 * 32768 = 2^30` is an `int`. -/
def large_canvas : Image :=
  { pixels := List.replicate 1073741824 4278190080
    horizon := List.replicate 32768 32768
    width := 32768
    height := 32768 }

/-! ### The scalar field and the projector

The functions `sinc`, `myfunc` and `convert_isometry` compute in `double`. The
embedding keeps their text and takes the number type `F` and the `<cmath>`
functions they call as parameters; the properties are stated in the
real-number model, `F = ℝ` with the mathematical functions (`real_math`), in
which the rounding of `double` arithmetic is absent. The conversion `int(t)`
truncates toward zero and is undefined outside the range of `int`: it has the
result `none` there. -/

/-- The functions of `<cmath>` that `main.cc` calls. -/
structure CMath (F : Type) where
  sin : F → F
  cos : F → F
  acos : F → F
  hypot : F → F → F

/-- The real-number model of `<cmath>`. -/
noncomputable def real_math : CMath ℝ :=
  { sin := Real.sin
    cos := Real.cos
    acos := Real.arccos
    hypot := fun x y => Real.sqrt (x ^ 2 + y ^ 2) }

/-- The constant `IMAGE_WIDTH`. -/
def IMAGE_WIDTH : Int := 1920

/-- The constant `IMAGE_HEIGHT`. -/
def IMAGE_HEIGHT : Int := 1080

/-- The constant `XSCALE`. -/
def XSCALE (F : Type) [Field F] : F := 20

/-- The constant `YSCALE`. -/
def YSCALE (F : Type) [Field F] : F := 20

/-- The constant `ZSCALE`. -/
def ZSCALE (F : Type) [Field F] : F := 350

/-- The constant `Pi = acos(-1)`. -/
def Pi {F : Type} [Field F] (m : CMath F) : F := m.acos (-1)

/-- The function `sinc` of `main.cc`. -/
def sinc {F : Type} [Field F] [DecidableEq F] (m : CMath F) (x : F) : F :=
  if x = 0 then 1 else m.sin x / x

/-- The function `myfunc` of `main.cc`. -/
def myfunc {F : Type} [Field F] [DecidableEq F] (m : CMath F) (x y : F) : F :=
  sinc m (m.hypot x y)

/-- Truncation toward zero: the integer part of `t`. -/
def trunc_toward_zero {F : Type} [LinearOrderedField F] [FloorRing F] (t : F) : Int :=
  if 0 ≤ t then Int.floor t else Int.ceil t

/-- The conversion `int(t)` of a `double`: the value truncated toward zero,
undefined when that is not an `int`. -/
def double_to_int {F : Type} [LinearOrderedField F] [FloorRing F] (t : F) : Option Int :=
  if INT_MIN ≤ trunc_toward_zero t ∧ trunc_toward_zero t ≤ INT_MAX then
    some (trunc_toward_zero t)
  else none

/-- The function `convert_isometry` of `main.cc`; the result is the pair
`(px, py)` it stores through its reference parameters. `IMAGE_WIDTH / 2` and
`IMAGE_HEIGHT / 2` are `int` divisions. -/
def convert_isometry {F : Type} [LinearOrderedField F] [FloorRing F] (m : CMath F)
    (x y z : F) : Option (Int × Int) :=
  match double_to_int
      (((IMAGE_WIDTH / 2 : Int) : F) -
        XSCALE F * x * m.cos (Pi m / 6) +
        YSCALE F * y * m.cos (Pi m / 6)),
    double_to_int
      (((IMAGE_HEIGHT / 2 : Int) : F) +
        XSCALE F * x * m.sin (Pi m / 6) +
        YSCALE F * y * m.sin (Pi m / 6) -
        ZSCALE F * z) with
  | some px, some py => some (px, py)
  | _, _ => none

/-! ## Single calls of `image_draw_pixel` -/

/-- Inside a canvas the index `y * width + x` stays below `width * height`. -/
theorem index_lt_area {x y w h : Int} (hx0 : 0 ≤ x) (hxw : x < w) (hy0 : 0 ≤ y)
    (hyh : y < h) : 0 ≤ y * w + x ∧ y * w + x < w * h := by
  have h1 : y * w ≤ (h - 1) * w :=
    Int.mul_le_mul_of_nonneg_right (by omega) (by omega)
  have h2 : 0 ≤ y * w := Int.mul_nonneg hy0 (by omega)
  have h3 : (h - 1) * w = w * h - w := by ring
  constructor
  · omega
  · omega

/-- A point at or below the recorded horizon of its column is dropped. -/
theorem occluded_point_dropped (image : Image) (x y h : Int) (color : Nat)
    (hx0 : 0 ≤ x) (hxw : x < image.width)
    (hh : image.horizon[x.toNat]? = some h) (hy : h ≤ y) :
    image_draw_pixel image x y color = some image := by
  have hx : ¬ (x < 0 ∨ x ≥ image.width) := by omega
  simp only [image_draw_pixel, if_neg hx, hh]
  simp [hy]

/-- C1: a point of a column `x` inside the canvas that lies at or below the
recorded horizon (`y >= horizon[x]`, the tie included) is dropped: the call
returns the image unchanged, pixels and horizon alike. -/
theorem draw_pixel_occluded_noop (image : Image) (x y h : Int) (color : Nat)
    (hx0 : 0 ≤ x) (hxw : x < image.width)
    (hh : image.horizon[x.toNat]? = some h) (hy : h ≤ y) :
    image_draw_pixel image x y color = some image := by
  have hx : ¬ (x < 0 ∨ x ≥ image.width) := by omega
  simp only [image_draw_pixel, if_neg hx, hh]
  simp [hy]

/-- Witness of C1 on a 2x1 canvas, at the tie `y = horizon[0] = 1`. -/
theorem draw_pixel_occluded_noop_witness :
    image_draw_pixel { pixels := [7, 7], horizon := [1, 1], width := 2, height := 1 } 0 1 9
      = some { pixels := [7, 7], horizon := [1, 1], width := 2, height := 1 } :=
  draw_pixel_occluded_noop _ 0 1 1 9 (by decide) (by decide) (by decide) (by decide)

/-- The three outcomes of `image_draw_pixel` on a canvas: the call is dropped,
it records an off-canvas point in the horizon only, or it records and plots. -/
theorem draw_pixel_cases (image : Image) (hc : image.IsCanvas) (x y : Int) (color : Nat) :
    ((x < 0 ∨ image.width ≤ x ∨ ∃ h, image.horizon[x.toNat]? = some h ∧ h ≤ y) ∧
      image_draw_pixel image x y color = some image) ∨
    ((0 ≤ x ∧ x < image.width ∧ (∃ h, image.horizon[x.toNat]? = some h ∧ y < h) ∧
        (y < 0 ∨ image.height ≤ y)) ∧
      image_draw_pixel image x y color =
        some { image with horizon := image.horizon.set x.toNat y }) ∨
    ((0 ≤ x ∧ x < image.width ∧ (∃ h, image.horizon[x.toNat]? = some h ∧ y < h) ∧
        0 ≤ y ∧ y < image.height ∧ (y * image.width + x).toNat < image.pixels.length) ∧
      image_draw_pixel image x y color =
        some { image with
                 horizon := image.horizon.set x.toNat y
                 pixels := image.pixels.set (y * image.width + x).toNat color }) := by
  obtain ⟨hw, hfit, hlen, hhor⟩ := hc
  by_cases hx : x < 0 ∨ x ≥ image.width
  · left
    refine ⟨by omega, ?_⟩
    simp only [image_draw_pixel, if_pos hx]
  · have hlt : x.toNat < image.horizon.length := by omega
    obtain ⟨h, hget⟩ : ∃ h, image.horizon[x.toNat]? = some h :=
      ⟨_, List.getElem?_eq_getElem hlt⟩
    by_cases hy : y ≥ h
    · left
      refine ⟨Or.inr (Or.inr ⟨h, hget, hy⟩), ?_⟩
      simp only [image_draw_pixel, if_neg hx, hget, if_pos hy]
    · by_cases hoff : y < 0 ∨ y ≥ image.height
      · right; left
        refine ⟨⟨by omega, by omega, ⟨h, hget, by omega⟩, by omega⟩, ?_⟩
        simp only [image_draw_pixel, if_neg hx, hget, if_neg hy, if_pos hoff]
      · right; right
        have hidx := index_lt_area (x := x) (y := y) (w := image.width) (h := image.height)
          (by omega) (by omega) (by omega) (by omega)
        have hov : ¬ INT_MAX < y * image.width + x := by omega
        have hin : (y * image.width + x).toNat < image.pixels.length := by omega
        refine ⟨⟨by omega, by omega, ⟨h, hget, by omega⟩, by omega, by omega, hin⟩, ?_⟩
        simp only [image_draw_pixel, if_neg hx, hget, if_neg hy, if_neg hoff, if_neg hov,
          if_pos hin]

/-- A point strictly above the recorded horizon of its column is recorded in
the horizon, and off the canvas the pixels stay. -/
theorem visible_point_recorded (image : Image) (x y h : Int) (color : Nat)
    (hx0 : 0 ≤ x) (hxw : x < image.width)
    (hh : image.horizon[x.toNat]? = some h) (hy : y < h) :
    (image.IsCanvas → ∃ image1, image_draw_pixel image x y color = some image1 ∧
        image1.horizon[x.toNat]? = some y) ∧
    ((y < 0 ∨ image.height ≤ y) → ∃ image1, image_draw_pixel image x y color = some image1 ∧
        image1.horizon[x.toNat]? = some y ∧ image1.pixels = image.pixels) := by
  have hlt : x.toNat < image.horizon.length := (List.getElem?_eq_some.1 hh).1
  constructor
  · intro hc
    rcases draw_pixel_cases image hc x y color with ⟨hcond, _⟩ | ⟨_, hr⟩ | ⟨_, hr⟩
    · rcases hcond with h1 | h1 | ⟨h2, hget, hle⟩
      · omega
      · omega
      · rw [hh] at hget
        cases hget
        omega
    · exact ⟨_, hr, by simp [hlt]⟩
    · exact ⟨_, hr, by simp [hlt]⟩
  · intro hoff
    have hx : ¬ (x < 0 ∨ x ≥ image.width) := by omega
    have hyn : ¬ y ≥ h := by omega
    have hoff2 : y < 0 ∨ y ≥ image.height := by omega
    refine ⟨{ image with horizon := image.horizon.set x.toNat y }, ?_, by simp [hlt], rfl⟩
    simp only [image_draw_pixel, if_neg hx, hh, if_neg hyn, if_pos hoff2]

/-- C2: a point of a column `x` inside the canvas that lies strictly above the
recorded horizon (`y < horizon[x]`) is recorded, `horizon[x] = y` after the
call, also when `y` is outside `[0, height)`; and in that off-canvas case
(which needs no assumption on the buffers beyond `horizon[x]` being there) the
pixel buffer is returned as it was. -/
theorem draw_pixel_records_horizon (image : Image) (x y h : Int) (color : Nat)
    (hx0 : 0 ≤ x) (hxw : x < image.width)
    (hh : image.horizon[x.toNat]? = some h) (hy : y < h) :
    (image.IsCanvas → ∃ image1, image_draw_pixel image x y color = some image1 ∧
        image1.horizon[x.toNat]? = some y) ∧
    ((y < 0 ∨ image.height ≤ y) → ∃ image1, image_draw_pixel image x y color = some image1 ∧
        image1.horizon[x.toNat]? = some y ∧ image1.pixels = image.pixels) := by
  have hlt : x.toNat < image.horizon.length := (List.getElem?_eq_some.1 hh).1
  constructor
  · intro hc
    rcases draw_pixel_cases image hc x y color with ⟨hcond, _⟩ | ⟨_, hr⟩ | ⟨_, hr⟩
    · rcases hcond with h1 | h1 | ⟨h2, hget, hle⟩
      · omega
      · omega
      · rw [hh] at hget
        cases hget
        omega
    · exact ⟨_, hr, by simp [hlt]⟩
    · exact ⟨_, hr, by simp [hlt]⟩
  · intro hoff
    have hx : ¬ (x < 0 ∨ x ≥ image.width) := by omega
    have hyn : ¬ y ≥ h := by omega
    have hoff2 : y < 0 ∨ y ≥ image.height := by omega
    refine ⟨{ image with horizon := image.horizon.set x.toNat y }, ?_, by simp [hlt], rfl⟩
    simp only [image_draw_pixel, if_neg hx, hh, if_neg hyn, if_pos hoff2]

/-- Witness of C2 on a 2x1 canvas: the point `(1, 0)` lowers `horizon[1]` from
1 to 0, and the off-canvas point `(1, -3)` lowers it to -3 and the pixels stay. -/
theorem draw_pixel_records_horizon_witness :
    (∃ image1, image_draw_pixel
        { pixels := [7, 7], horizon := [1, 1], width := 2, height := 1 } 1 0 9 = some image1 ∧
      image1.horizon[(1 : Int).toNat]? = some 0) ∧
    (∃ image1, image_draw_pixel
        { pixels := [7, 7], horizon := [1, 1], width := 2, height := 1 } 1 (-3) 9 = some image1 ∧
      image1.horizon[(1 : Int).toNat]? = some (-3) ∧ image1.pixels = [7, 7]) :=
  ⟨(draw_pixel_records_horizon { pixels := [7, 7], horizon := [1, 1], width := 2, height := 1 }
      1 0 1 9 (by decide) (by decide) (by decide) (by decide)).1 (by decide),
   (draw_pixel_records_horizon { pixels := [7, 7], horizon := [1, 1], width := 2, height := 1 }
      1 (-3) 1 9 (by decide) (by decide) (by decide) (by decide)).2 (Or.inl (by decide))⟩

/-- A point of the canvas strictly above the recorded horizon of its column is
plotted, and nothing else changes. -/
theorem visible_point_plotted (image : Image) (x y h : Int) (color : Nat)
    (hc : image.IsCanvas) (hx0 : 0 ≤ x) (hxw : x < image.width)
    (hh : image.horizon[x.toNat]? = some h) (hy : y < h)
    (hy0 : 0 ≤ y) (hyh : y < image.height) :
    ∃ image1, image_draw_pixel image x y color = some image1 ∧
      image1.pixels[(y * image.width + x).toNat]? = some color ∧
      (∀ j, j ≠ (y * image.width + x).toNat → image1.pixels[j]? = image.pixels[j]?) ∧
      (∀ k, k ≠ x.toNat → image1.horizon[k]? = image.horizon[k]?) ∧
      image1.pixels.length = image.pixels.length ∧
      image1.horizon.length = image.horizon.length ∧
      image1.width = image.width ∧ image1.height = image.height := by
  rcases draw_pixel_cases image hc x y color with ⟨hcond, _⟩ | ⟨hcond, _⟩ | ⟨hcond, hr⟩
  · rcases hcond with h1 | h1 | ⟨h2, hget, hle⟩
    · omega
    · omega
    · rw [hh] at hget
      cases hget
      omega
  · omega
  · refine ⟨_, hr, ?_, ?_, ?_, by simp, by simp, rfl, rfl⟩
    · simp [hcond.2.2.2.2.2]
    · intro j hj
      simp [List.getElem?_set_ne (Ne.symm hj)]
    · intro k hk
      simp [List.getElem?_set_ne (Ne.symm hk)]

/-- C3: on a canvas, a point `(x, y)` inside it that lies strictly above the
recorded horizon is plotted: `color` is written at index `y * width + x`, every
other pixel keeps its value, every horizon entry other than column `x` keeps its
value, and the dimensions and the buffer lengths stay. -/
theorem draw_pixel_plots (image : Image) (x y h : Int) (color : Nat)
    (hc : image.IsCanvas) (hx0 : 0 ≤ x) (hxw : x < image.width)
    (hh : image.horizon[x.toNat]? = some h) (hy : y < h)
    (hy0 : 0 ≤ y) (hyh : y < image.height) :
    ∃ image1, image_draw_pixel image x y color = some image1 ∧
      image1.pixels[(y * image.width + x).toNat]? = some color ∧
      (∀ j, j ≠ (y * image.width + x).toNat → image1.pixels[j]? = image.pixels[j]?) ∧
      (∀ k, k ≠ x.toNat → image1.horizon[k]? = image.horizon[k]?) ∧
      image1.pixels.length = image.pixels.length ∧
      image1.horizon.length = image.horizon.length ∧
      image1.width = image.width ∧ image1.height = image.height := by
  rcases draw_pixel_cases image hc x y color with ⟨hcond, _⟩ | ⟨hcond, _⟩ | ⟨hcond, hr⟩
  · rcases hcond with h1 | h1 | ⟨h2, hget, hle⟩
    · omega
    · omega
    · rw [hh] at hget
      cases hget
      omega
  · omega
  · refine ⟨_, hr, ?_, ?_, ?_, by simp, by simp, rfl, rfl⟩
    · simp [hcond.2.2.2.2.2]
    · intro j hj
      simp [List.getElem?_set_ne (Ne.symm hj)]
    · intro k hk
      simp [List.getElem?_set_ne (Ne.symm hk)]

/-- Witness of C3 on a 2x2 canvas: the point `(1, 1)` is plotted at index 3. -/
theorem draw_pixel_plots_witness :
    ∃ image1, image_draw_pixel
        { pixels := [7, 7, 7, 7], horizon := [2, 2], width := 2, height := 2 } 1 1 9
          = some image1 ∧
      image1.pixels[((1 : Int) * 2 + 1).toNat]? = some 9 ∧
      (∀ j, j ≠ ((1 : Int) * 2 + 1).toNat → image1.pixels[j]? = [7, 7, 7, 7][j]?) ∧
      (∀ k, k ≠ (1 : Int).toNat → image1.horizon[k]? = [(2 : Int), 2][k]?) ∧
      image1.pixels.length = 4 ∧ image1.horizon.length = 2 ∧
      image1.width = 2 ∧ image1.height = 2 :=
  draw_pixel_plots { pixels := [7, 7, 7, 7], horizon := [2, 2], width := 2, height := 2 }
    1 1 2 9 (by decide) (by decide) (by decide) (by decide) (by decide) (by decide) (by decide)

/-- C4: a point whose column is outside `[0, width)` is clipped: the call
returns the image unchanged, whatever `y` and `color` are. -/
theorem draw_pixel_clipped (image : Image) (x y : Int) (color : Nat)
    (hx : x < 0 ∨ image.width ≤ x) :
    image_draw_pixel image x y color = some image := by
  have hx2 : x < 0 ∨ x ≥ image.width := by omega
  simp only [image_draw_pixel, if_pos hx2]

/-- Witness of C4 on a 2x1 canvas, at the column `x = width`. -/
theorem draw_pixel_clipped_witness :
    image_draw_pixel { pixels := [7, 7], horizon := [1, 1], width := 2, height := 1 } 2 0 9
      = some { pixels := [7, 7], horizon := [1, 1], width := 2, height := 1 } :=
  draw_pixel_clipped _ 2 0 9 (Or.inr (by decide))

/-! ## The canvas invariant -/

/-- The function `image_draw_pixel` always returns on a canvas, and what it
returns is a canvas of the same dimensions and buffer lengths. -/
theorem draw_pixel_canvas (image : Image) (hc : image.IsCanvas) (x y : Int) (color : Nat) :
    ∃ image1, image_draw_pixel image x y color = some image1 ∧ image1.IsCanvas ∧
      image1.width = image.width ∧ image1.height = image.height ∧
      image1.horizon.length = image.horizon.length ∧
      image1.pixels.length = image.pixels.length := by
  rcases draw_pixel_cases image hc x y color with ⟨_, hr⟩ | ⟨_, hr⟩ | ⟨_, hr⟩
  · exact ⟨_, hr, hc, rfl, rfl, rfl, rfl⟩
  · refine ⟨_, hr, ?_, rfl, rfl, by simp, rfl⟩
    simpa [Image.IsCanvas] using hc
  · refine ⟨_, hr, ?_, rfl, rfl, by simp, by simp⟩
    simpa [Image.IsCanvas] using hc

/-- A sequence of `image_draw_pixel` calls always returns on a canvas, and
what it returns is a canvas of the same dimensions and buffer lengths. -/
theorem draw_calls_canvas (calls : List (Int × Int × Nat)) :
    ∀ image : Image, image.IsCanvas →
      ∃ image1, draw_calls image calls = some image1 ∧ image1.IsCanvas ∧
        image1.width = image.width ∧ image1.height = image.height ∧
        image1.horizon.length = image.horizon.length ∧
        image1.pixels.length = image.pixels.length := by
  induction calls with
  | nil => intro image hc; exact ⟨image, rfl, hc, rfl, rfl, rfl, rfl⟩
  | cons call rest ih =>
    intro image hc
    obtain ⟨x, y, color⟩ := call
    obtain ⟨mid, hmid, hcm, hw, hh, hhl, hpl⟩ := draw_pixel_canvas image hc x y color
    obtain ⟨last, hlast, hcl, hw2, hh2, hhl2, hpl2⟩ := ih mid hcm
    refine ⟨last, ?_, hcl, by omega, by omega, by omega, by omega⟩
    simp only [draw_calls, hmid, hlast]

/-- The function `image_reset_horizon` keeps a canvas a canvas. -/
theorem reset_horizon_canvas (image : Image) (hc : image.IsCanvas) :
    (image_reset_horizon image).IsCanvas := by
  simpa [Image.IsCanvas, image_reset_horizon] using hc

/-- After `image_reset_horizon` the horizon is `height` in every column. -/
theorem reset_horizon_eq_replicate (image : Image) :
    (image_reset_horizon image).horizon = List.replicate image.horizon.length image.height := by
  simp [image_reset_horizon, List.map_const']

/-! ## Horizon monotonicity and occlusion -/

/-- One call of `image_draw_pixel` that returns does not raise any horizon entry. -/
theorem draw_pixel_horizon_le (image image1 : Image) (x y : Int) (color : Nat)
    (hr : image_draw_pixel image x y color = some image1) (c : Nat) (v : Int)
    (hv : image.horizon[c]? = some v) :
    ∃ v1, image1.horizon[c]? = some v1 ∧ v1 ≤ v := by
  have hcl : c < image.horizon.length := (List.getElem?_eq_some.1 hv).1
  have hset : ∀ h, image.horizon[x.toNat]? = some h → y < h →
      ∃ v1, (image.horizon.set x.toNat y)[c]? = some v1 ∧ v1 ≤ v := by
    intro h hget hy
    by_cases hxc : x.toNat = c
    · subst hxc
      rw [hv] at hget
      cases hget
      exact ⟨y, by simp [hcl], by omega⟩
    · exact ⟨v, by simp [List.getElem?_set_ne hxc, hv], le_refl v⟩
  unfold image_draw_pixel at hr
  split at hr
  · cases hr
    exact ⟨v, hv, le_refl v⟩
  · split at hr
    · cases hr
    · rename_i h hget
      split at hr
      · cases hr
        exact ⟨v, hv, le_refl v⟩
      · split at hr
        · cases hr
          exact hset h hget (by omega)
        · split at hr
          · cases hr
          · split at hr
            · cases hr
              exact hset h hget (by omega)
            · cases hr

/-- A sequence of `image_draw_pixel` calls that returns does not raise any
horizon entry. -/
theorem draw_calls_horizon_le (calls : List (Int × Int × Nat)) :
    ∀ (image image1 : Image), draw_calls image calls = some image1 →
      ∀ (c : Nat) (v : Int), image.horizon[c]? = some v →
        ∃ v1, image1.horizon[c]? = some v1 ∧ v1 ≤ v := by
  induction calls with
  | nil =>
    intro image image1 hr c v hv
    simp only [draw_calls, Option.some.injEq] at hr
    subst hr
    exact ⟨v, hv, le_refl v⟩
  | cons call rest ih =>
    intro image image1 hr c v hv
    obtain ⟨x, y, color⟩ := call
    simp only [draw_calls] at hr
    split at hr
    · cases hr
    · rename_i mid hmid
      obtain ⟨vm, hvm, hle⟩ := draw_pixel_horizon_le image mid x y color hmid c v hv
      obtain ⟨v1, hv1, hle1⟩ := ih mid image1 hr c vm hvm
      exact ⟨v1, hv1, by omega⟩

/-- C5: horizon monotonicity. On a canvas every finite sequence of
`image_draw_pixel` calls (any `x`, `y`, `color`) returns, and at every point of
the run (after the calls `before`) a further stretch of calls `after`, a single
call in particular, leaves `horizon[c]` less than or equal to what it was, for
every column `c`: the values taken by `horizon[c]` never increase. -/
theorem horizon_monotone (image : Image) (hc : image.IsCanvas)
    (before after : List (Int × Int × Nat)) (c : Nat) (hcol : (c : Int) < image.width) :
    ∃ image1 image2 v1 v2,
      draw_calls image before = some image1 ∧ draw_calls image1 after = some image2 ∧
      image1.horizon[c]? = some v1 ∧ image2.horizon[c]? = some v2 ∧ v2 ≤ v1 := by
  obtain ⟨image1, h1, hc1, hw1, _, hl1, _⟩ := draw_calls_canvas before image hc
  obtain ⟨image2, h2, _, _, _, _, _⟩ := draw_calls_canvas after image1 hc1
  have hlen : c < image1.horizon.length := by
    have := hc.2.2.2
    omega
  obtain ⟨v2, hv2, hle⟩ :=
    draw_calls_horizon_le after image1 image2 h2 c _ (List.getElem?_eq_getElem hlen)
  exact ⟨image1, image2, _, v2, h1, h2, List.getElem?_eq_getElem hlen, hv2, hle⟩

/-- Witness of C5 on a 2x2 canvas: column 0 goes from 2 to 1 in the first
stretch and from 1 to -4 in the second, where the call at row 5 is dropped. -/
theorem horizon_monotone_witness :
    ∃ image1 image2 v1 v2,
      draw_calls { pixels := [7, 7, 7, 7], horizon := [2, 2], width := 2, height := 2 }
        [(0, 1, 9)] = some image1 ∧
      draw_calls image1 [(0, 5, 9), (0, -4, 9)] = some image2 ∧
      image1.horizon[0]? = some v1 ∧ image2.horizon[0]? = some v2 ∧ v2 ≤ v1 :=
  horizon_monotone { pixels := [7, 7, 7, 7], horizon := [2, 2], width := 2, height := 2 }
    (by decide) [(0, 1, 9)] [(0, 5, 9), (0, -4, 9)] 0 (by decide)

/-- C6: occlusion. On a canvas, in a column `x` inside it, a first draw at a
row `y1` strictly above the horizon returns with `horizon[x] = y1` (and with
the colour `c1` at `(x, y1)` when the row is on the canvas); a second draw in
the same column at any row `y2 >= y1` then returns the image of the first draw
unchanged, pixels and horizon, so the colour `c2` is not plotted. -/
theorem occlusion_second_draw_rejected (image : Image) (hc : image.IsCanvas)
    (x y1 y2 h : Int) (c1 c2 : Nat)
    (hx0 : 0 ≤ x) (hxw : x < image.width)
    (hh : image.horizon[x.toNat]? = some h) (hy1 : y1 < h) (hy2 : y1 ≤ y2) :
    ∃ image1, image_draw_pixel image x y1 c1 = some image1 ∧
      image1.horizon[x.toNat]? = some y1 ∧
      (0 ≤ y1 → y1 < image.height →
        image1.pixels[(y1 * image.width + x).toNat]? = some c1) ∧
      image_draw_pixel image1 x y2 c2 = some image1 := by
  have hlt : x.toNat < image.horizon.length := (List.getElem?_eq_some.1 hh).1
  obtain ⟨image1, hr, hc1, hw1, hh1, _, _⟩ := draw_pixel_canvas image hc x y1 c1
  have hhor : image1.horizon[x.toNat]? = some y1 :=
    ((visible_point_recorded image x y1 h c1 hx0 hxw hh hy1).1 hc).elim
      (fun i hi => by
        have : i = image1 := by
          have := hi.1
          rw [hr] at this
          exact (Option.some.inj this).symm
        subst this
        exact hi.2)
  refine ⟨image1, hr, hhor, ?_, ?_⟩
  · intro h0 hlt2
    obtain ⟨i, hi, hpix, _⟩ := visible_point_plotted image x y1 h c1 hc hx0 hxw hh hy1 h0 hlt2
    rw [hr] at hi
    cases hi
    exact hpix
  · exact occluded_point_dropped image1 x y2 y1 c2 hx0 (by omega) hhor hy2

/-- Witness of C6 on a 2x2 canvas: `(1, 0)` is drawn with colour 9, then
`(1, 1)` with colour 5 is rejected. -/
theorem occlusion_second_draw_rejected_witness :
    ∃ image1, image_draw_pixel
        { pixels := [7, 7, 7, 7], horizon := [2, 2], width := 2, height := 2 } 1 0 9
          = some image1 ∧
      image1.horizon[(1 : Int).toNat]? = some 0 ∧
      ((0 : Int) ≤ 0 → (0 : Int) < 2 →
        image1.pixels[((0 : Int) * 2 + 1).toNat]? = some 9) ∧
      image_draw_pixel image1 1 1 5 = some image1 :=
  occlusion_second_draw_rejected
    { pixels := [7, 7, 7, 7], horizon := [2, 2], width := 2, height := 2 } (by decide)
    1 0 1 2 9 5 (by decide) (by decide) (by decide) (by decide) (by decide)

/-! ## Resetting the horizon -/

/-- C7: `image_reset_horizon` sets every horizon entry to `height`, keeps the
length of the horizon, and leaves `pixels`, `width` and `height` as they were. -/
theorem reset_horizon_spec (image : Image) :
    (image_reset_horizon image).horizon.length = image.horizon.length ∧
    (∀ c, c < image.horizon.length →
      (image_reset_horizon image).horizon[c]? = some image.height) ∧
    (∀ v ∈ (image_reset_horizon image).horizon, v = image.height) ∧
    (image_reset_horizon image).pixels = image.pixels ∧
    (image_reset_horizon image).width = image.width ∧
    (image_reset_horizon image).height = image.height := by
  refine ⟨by simp [image_reset_horizon], ?_, ?_, rfl, rfl, rfl⟩
  · intro c hlt
    rw [reset_horizon_eq_replicate]
    simp [hlt]
  · intro v hv
    rw [reset_horizon_eq_replicate] at hv
    exact (List.mem_replicate.1 hv).2

/-- C8: reset restores drawability. On a canvas, whatever its horizon holds,
after `image_reset_horizon` a draw in any column `x` inside the canvas at any
row `y < height` returns with `horizon[x] = y` and, when `0 <= y`, with
`color` at index `y * width + x` of the pixel buffer. -/
theorem reset_restores_drawability (image : Image) (hc : image.IsCanvas)
    (x y : Int) (color : Nat) (hx0 : 0 ≤ x) (hxw : x < image.width)
    (hy : y < image.height) :
    ∃ image1, image_draw_pixel (image_reset_horizon image) x y color = some image1 ∧
      image1.horizon[x.toNat]? = some y ∧
      (0 ≤ y → image1.pixels[(y * image.width + x).toNat]? = some color) := by
  have hcr := reset_horizon_canvas image hc
  have hlt : x.toNat < image.horizon.length := by
    have := hc.2.2.2
    omega
  have hget : (image_reset_horizon image).horizon[x.toNat]? = some image.height :=
    by rw [reset_horizon_eq_replicate]; simp [hlt]
  obtain ⟨image1, hr, hhor⟩ :=
    (visible_point_recorded (image_reset_horizon image) x y image.height color
      hx0 hxw hget hy).1 hcr
  refine ⟨image1, hr, hhor, ?_⟩
  intro h0
  obtain ⟨i, hi, hpix, _⟩ := visible_point_plotted (image_reset_horizon image) x y image.height
    color hcr hx0 hxw hget hy h0 hy
  rw [hr] at hi
  cases hi
  exact hpix

/-- Witness of C8 on a 2x2 canvas whose column 1 was occluded down to row -5. -/
theorem reset_restores_drawability_witness :
    ∃ image1, image_draw_pixel (image_reset_horizon
        { pixels := [7, 7, 7, 7], horizon := [0, -5], width := 2, height := 2 }) 1 1 9
          = some image1 ∧
      image1.horizon[(1 : Int).toNat]? = some 1 ∧
      ((0 : Int) ≤ 1 → image1.pixels[((1 : Int) * 2 + 1).toNat]? = some 9) :=
  reset_restores_drawability
    { pixels := [7, 7, 7, 7], horizon := [0, -5], width := 2, height := 2 } (by decide)
    1 1 9 (by decide) (by decide) (by decide)

/-! ## Initialisation and the two sweeps -/

/-- What `image_init` returns when the `int` product `width * height` does not
overflow: the dimensions, a pixel buffer of `width * height` background
entries, and a horizon of `width` entries. -/
theorem image_init_result (image : Image) (width height : Int) (background : Nat)
    (hw : 0 ≤ width) (hh : 0 ≤ height) (hfit : width * height ≤ INT_MAX) :
    ∃ canvas, image_init image width height background = some canvas ∧
      canvas.width = width ∧ canvas.height = height ∧
      canvas.pixels = List.replicate (width * height).toNat background ∧
      canvas.horizon.length = width.toNat := by
  have hprod : 0 ≤ width * height := Int.mul_nonneg hw hh
  have h1 : ¬ (width * height < INT_MIN ∨ INT_MAX < width * height) := by
    simp only [INT_MIN, INT_MAX] at *
    omega
  have h2 : ¬ width * height < 0 := by omega
  have h3 : ¬ width < 0 := by omega
  refine ⟨{ width := width, height := height,
            pixels := (vector_resize image.pixels (width * height).toNat 0).map
              (fun _ => background),
            horizon := vector_resize image.horizon width.toNat 0 },
    by simp only [image_init, if_neg h1, if_neg h2, if_neg h3], rfl, rfl, ?_, ?_⟩
  · simp only [List.map_const', vector_resize, List.length_append, List.length_take,
      List.length_replicate]
    congr 1
    omega
  · simp only [vector_resize, List.length_append, List.length_take, List.length_replicate]
    omega

/-- When `image_init` returns, its arguments were non-negative in the sense
that matters (`0 <= width`, `0 <= width * height <= INT_MAX`) and the result
is a canvas filled with the background colour. -/
theorem image_init_some (image canvas : Image) (width height : Int) (background : Nat)
    (hinit : image_init image width height background = some canvas) :
    canvas.width = width ∧ canvas.height = height ∧
      canvas.pixels = List.replicate (width * height).toNat background ∧
      canvas.horizon.length = width.toNat ∧
      0 ≤ width ∧ 0 ≤ width * height ∧ width * height ≤ INT_MAX := by
  unfold image_init at hinit
  split at hinit
  · cases hinit
  · split at hinit
    · cases hinit
    · split at hinit
      · cases hinit
      · rename_i h1 h2 h3
        cases hinit
        refine ⟨rfl, rfl, ?_, ?_, by omega, by omega, by omega⟩
        · simp only [List.map_const', vector_resize, List.length_append, List.length_take,
            List.length_replicate]
          congr 1
          omega
        · simp only [vector_resize, List.length_append, List.length_take,
            List.length_replicate]
          omega

/-- Two canvases that differ in their pixels only take the same branch of
`image_draw_pixel`: the results again differ in their pixels only, and at each
index either both results hold the drawn colour or both hold what they held. -/
theorem draw_pixel_coupled (p q : Image) (hp : p.IsCanvas)
    (hw : q.width = p.width) (hh : q.height = p.height) (hhor : q.horizon = p.horizon)
    (hlen : q.pixels.length = p.pixels.length) (x y : Int) (fg : Nat) :
    ∃ p1 q1, image_draw_pixel p x y fg = some p1 ∧ image_draw_pixel q x y fg = some q1 ∧
      q1.width = p1.width ∧ q1.height = p1.height ∧ q1.horizon = p1.horizon ∧
      q1.pixels.length = p1.pixels.length ∧
      ∀ i : Nat, (p1.pixels[i]? = some fg ∧ q1.pixels[i]? = some fg) ∨
        (p1.pixels[i]? = p.pixels[i]? ∧ q1.pixels[i]? = q.pixels[i]?) := by
  obtain ⟨hw0, hfit, hplen, hhlen⟩ := hp
  by_cases hx : x < 0 ∨ x ≥ p.width
  · refine ⟨p, q, ?_, ?_, hw, hh, hhor, hlen, fun i => Or.inr ⟨rfl, rfl⟩⟩
    · simp only [image_draw_pixel, if_pos hx]
    · simp only [image_draw_pixel, hw, if_pos hx]
  · have hlt : x.toNat < p.horizon.length := by omega
    obtain ⟨h, hget⟩ : ∃ h, p.horizon[x.toNat]? = some h :=
      ⟨_, List.getElem?_eq_getElem hlt⟩
    by_cases hy : y ≥ h
    · refine ⟨p, q, ?_, ?_, hw, hh, hhor, hlen, fun i => Or.inr ⟨rfl, rfl⟩⟩
      · simp only [image_draw_pixel, if_neg hx, hget, if_pos hy]
      · simp only [image_draw_pixel, hw, hhor, if_neg hx, hget, if_pos hy]
    · by_cases hoff : y < 0 ∨ y ≥ p.height
      · refine ⟨{ p with horizon := p.horizon.set x.toNat y },
          { q with horizon := q.horizon.set x.toNat y }, ?_, ?_, hw, hh, ?_, hlen,
          fun i => Or.inr ⟨rfl, rfl⟩⟩
        · simp only [image_draw_pixel, if_neg hx, hget, if_neg hy, if_pos hoff]
        · simp only [image_draw_pixel, hw, hh, hhor, if_neg hx, hget, if_neg hy, if_pos hoff]
        · simp only [hhor]
      · have hidx := index_lt_area (x := x) (y := y) (w := p.width) (h := p.height)
          (by omega) (by omega) (by omega) (by omega)
        have hov : ¬ INT_MAX < y * p.width + x := by omega
        have hin : (y * p.width + x).toNat < p.pixels.length := by omega
        refine ⟨{ p with horizon := p.horizon.set x.toNat y
                         pixels := p.pixels.set (y * p.width + x).toNat fg },
          { q with horizon := q.horizon.set x.toNat y
                   pixels := q.pixels.set (y * p.width + x).toNat fg }, ?_, ?_, hw, hh, ?_, ?_, ?_⟩
        · simp only [image_draw_pixel, if_neg hx, hget, if_neg hy, if_neg hoff, if_neg hov,
            if_pos hin]
        · simp only [image_draw_pixel, hw, hh, hhor, hlen, if_neg hx, hget, if_neg hy,
            if_neg hoff, if_neg hov, if_pos hin]
        · simp only [hhor]
        · simp only [List.length_set, hlen]
        · intro i
          by_cases hi : (y * p.width + x).toNat = i
          · left
            subst hi
            exact ⟨by simp [hin], by simp [hlen, hin]⟩
          · right
            exact ⟨by simp [List.getElem?_set_ne hi], by simp [List.getElem?_set_ne hi]⟩

/-- The coupling of `draw_pixel_coupled` along a whole sweep: two canvases that
differ in their pixels only are swept to results that differ in their pixels
only, and at each index either both results hold the sweep colour or both hold
what they held before the sweep. -/
theorem sweep_coupled (points : List (Int × Int)) (fg : Nat) :
    ∀ p q : Image, p.IsCanvas → q.width = p.width → q.height = p.height →
      q.horizon = p.horizon → q.pixels.length = p.pixels.length →
      ∃ p1 q1, sweep p points fg = some p1 ∧ sweep q points fg = some q1 ∧
        p1.IsCanvas ∧ p1.width = p.width ∧ p1.height = p.height ∧
        p1.horizon.length = p.horizon.length ∧ p1.pixels.length = p.pixels.length ∧
        q1.width = p1.width ∧ q1.height = p1.height ∧ q1.horizon = p1.horizon ∧
        q1.pixels.length = p1.pixels.length ∧
        ∀ i : Nat, (p1.pixels[i]? = some fg ∧ q1.pixels[i]? = some fg) ∨
          (p1.pixels[i]? = p.pixels[i]? ∧ q1.pixels[i]? = q.pixels[i]?) := by
  induction points with
  | nil =>
    intro p q hp hw hh hhor hlen
    exact ⟨p, q, rfl, rfl, hp, rfl, rfl, rfl, rfl, hw, hh, hhor, hlen,
      fun i => Or.inr ⟨rfl, rfl⟩⟩
  | cons pt rest ih =>
    intro p q hp hw hh hhor hlen
    obtain ⟨pm, qm, hpm, hqm, hwm, hhm, hhorm, hlenm, hpixm⟩ :=
      draw_pixel_coupled p q hp hw hh hhor hlen pt.1 pt.2 fg
    obtain ⟨pm2, hpm2, hcm, hpw, hph, hphl, hppl⟩ := draw_pixel_canvas p hp pt.1 pt.2 fg
    rw [hpm] at hpm2
    cases hpm2
    obtain ⟨p1, q1, hp1, hq1, hc1, hw1, hh1, hhl1, hpl1, hqw, hqh, hqhor, hqlen, hpix⟩ :=
      ih pm qm hcm hwm hhm hhorm hlenm
    refine ⟨p1, q1, ?_, ?_, hc1, by omega, by omega, by omega, by omega, hqw, hqh, hqhor,
      hqlen, ?_⟩
    · simp only [sweep, List.map_cons, draw_calls, hpm]
      exact hp1
    · simp only [sweep, List.map_cons, draw_calls, hqm]
      exact hq1
    · intro i
      rcases hpix i with hboth | ⟨hpi, hqi⟩
      · exact Or.inl hboth
      · rcases hpixm i with ⟨hpf, hqf⟩ | ⟨hpo, hqo⟩
        · exact Or.inl ⟨by rw [hpi, hpf], by rw [hqi, hqf]⟩
        · exact Or.inr ⟨by rw [hpi, hpo], by rw [hqi, hqo]⟩

/-- Whatever `image_init` returns is a canvas. -/
theorem image_init_canvas (image canvas : Image) (width height : Int) (background : Nat)
    (hinit : image_init image width height background = some canvas) : canvas.IsCanvas := by
  obtain ⟨hcw, hch, hpix, hhor, hw, _, hfit⟩ :=
    image_init_some image canvas width height background hinit
  exact ⟨by rw [hcw]; exact hw, by rw [hcw, hch]; exact hfit,
    by rw [hpix, hcw, hch]; simp, by rw [hhor, hcw]⟩

/-- C9: the final image is the union of the two sweeps, each with its own
fresh horizon. From a canvas `image_init` returned with background `bg`, let
`rA` be the result of (reset; sweep `A`), `rB` the result of (reset; sweep `B`)
and `rAB` the result of (reset; sweep `A`; reset; sweep `B`), all with the one
colour `fg`. All three runs return; the horizon after the second sweep is the
one sweep `B` leaves on its own; and every pixel `i` of `rAB` is `fg` exactly
when pixel `i` of `rA` or pixel `i` of `rB` is `fg`, and is `bg` otherwise. -/
theorem two_sweeps_union (image0 canvas : Image) (width height : Int) (bg fg : Nat)
    (A B : List (Int × Int))
    (hinit : image_init image0 width height bg = some canvas) :
    ∃ rA rB rAB,
      sweep (image_reset_horizon canvas) A fg = some rA ∧
      sweep (image_reset_horizon canvas) B fg = some rB ∧
      sweep (image_reset_horizon rA) B fg = some rAB ∧
      rAB.horizon = rB.horizon ∧
      rA.pixels.length = (width * height).toNat ∧
      rB.pixels.length = (width * height).toNat ∧
      rAB.pixels.length = (width * height).toNat ∧
      ∀ i : Nat, i < (width * height).toNat →
        ∃ v vA vB, rAB.pixels[i]? = some v ∧ rA.pixels[i]? = some vA ∧
          rB.pixels[i]? = some vB ∧
          (v = fg ↔ (vA = fg ∨ vB = fg)) ∧ (v ≠ fg → v = bg) := by
  have hc0 := image_init_canvas image0 canvas width height bg hinit
  obtain ⟨hcw, hch, hpix, hhor, hw, _, hfit⟩ :=
    image_init_some image0 canvas width height bg hinit
  have hcr := reset_horizon_canvas canvas hc0
  -- sweep A from the reset canvas, coupled with itself
  obtain ⟨rA, rA2, hrA, hrA2, hcA, hwA, hhA, hhlA, hplA, _, _, _, _, hpixA⟩ :=
    sweep_coupled A fg (image_reset_horizon canvas) (image_reset_horizon canvas) hcr
      rfl rfl rfl rfl
  -- sweep B from the reset result of A, coupled with sweep B from the reset canvas
  have hcrA := reset_horizon_canvas rA hcA
  have hhoreq : (image_reset_horizon canvas).horizon = (image_reset_horizon rA).horizon := by
    rw [reset_horizon_eq_replicate, reset_horizon_eq_replicate, hhlA, hhA]
    simp [image_reset_horizon]
  obtain ⟨rAB, rB, hrAB, hrB, hcAB, hwAB, hhAB, hhlAB, hplAB, _, _, hhorB, hlenB, hpixB⟩ :=
    sweep_coupled B fg (image_reset_horizon rA) (image_reset_horizon canvas) hcrA
      (by simp only [image_reset_horizon]; exact hwA.symm)
      (by simp only [image_reset_horizon]; exact hhA.symm)
      hhoreq
      (by simp only [image_reset_horizon]; exact hplA.symm)
  have hlen0 : canvas.pixels.length = (width * height).toNat := by simp [hpix]
  have hlenA : rA.pixels.length = (width * height).toNat := by
    rw [hplA]; simpa [image_reset_horizon] using hlen0
  have hlenAB : rAB.pixels.length = (width * height).toNat := by
    rw [hplAB]; simpa [image_reset_horizon] using hlenA
  refine ⟨rA, rB, rAB, hrA, hrB, hrAB, hhorB.symm, hlenA, by omega, hlenAB, ?_⟩
  intro i hi
  have hbg : canvas.pixels[i]? = some bg := by
    rw [hpix]
    simp [hi]
  have hbgr : (image_reset_horizon canvas).pixels[i]? = some bg := hbg
  have hA : rA.pixels[i]? = some fg ∨ rA.pixels[i]? = some bg := by
    rcases hpixA i with ⟨hf, _⟩ | ⟨ho, _⟩
    · exact Or.inl hf
    · exact Or.inr (by rw [ho, hbgr])
  have hrApix : (image_reset_horizon rA).pixels[i]? = rA.pixels[i]? := rfl
  rcases hpixB i with ⟨hf, hfB⟩ | ⟨ho, hoB⟩
  · exact ⟨fg, _, fg, hf, List.getElem?_eq_getElem (by omega), hfB,
      ⟨fun _ => Or.inr rfl, fun _ => rfl⟩, fun hne => absurd rfl hne⟩
  · rw [hrApix] at ho
    rw [hbgr] at hoB
    rcases hA with hAf | hAb
    · exact ⟨fg, fg, bg, by rw [ho, hAf], hAf, hoB,
        ⟨fun _ => Or.inl rfl, fun _ => rfl⟩, fun hne => absurd rfl hne⟩
    · exact ⟨bg, bg, bg, by rw [ho, hAb], hAb, hoB,
        ⟨fun hv => Or.inl hv, fun hv => hv.elim id id⟩, fun _ => rfl⟩

/-- Witness of C9 on a 2x2 canvas: sweep `A` plots `(0, 1)`, sweep `B` plots
`(0, 1)` again and `(1, 0)`. -/
theorem two_sweeps_union_witness :
    ∃ rA rB rAB,
      sweep (image_reset_horizon
        { pixels := [0, 0, 0, 0], horizon := [0, 0], width := 2, height := 2 })
        [(0, 1), (0, 1)] 1 = some rA ∧
      sweep (image_reset_horizon
        { pixels := [0, 0, 0, 0], horizon := [0, 0], width := 2, height := 2 })
        [(0, 1), (1, 0)] 1 = some rB ∧
      sweep (image_reset_horizon rA) [(0, 1), (1, 0)] 1 = some rAB ∧
      rAB.horizon = rB.horizon ∧
      rA.pixels.length = ((2 : Int) * 2).toNat ∧
      rB.pixels.length = ((2 : Int) * 2).toNat ∧
      rAB.pixels.length = ((2 : Int) * 2).toNat ∧
      ∀ i : Nat, i < ((2 : Int) * 2).toNat →
        ∃ v vA vB, rAB.pixels[i]? = some v ∧ rA.pixels[i]? = some vA ∧
          rB.pixels[i]? = some vB ∧
          (v = 1 ↔ (vA = 1 ∨ vB = 1)) ∧ (v ≠ 1 → v = 0) :=
  two_sweeps_union Image.fresh
    { pixels := [0, 0, 0, 0], horizon := [0, 0], width := 2, height := 2 } 2 2 0 1
    [(0, 1), (0, 1)] [(0, 1), (1, 0)] (by decide)

/-- C10, as the claim states it, fails: for `width = height = 65536`, both
non-negative `int` values, the `int` product `width * height` overflows and
`image_init` yields no canvas, so no pixel buffer of length `width * height`. -/
theorem image_init_overflow_counterexample :
    (0 : Int) ≤ 65536 ∧ (65536 : Int) ≤ INT_MAX ∧
    ¬ ∃ canvas, image_init Image.fresh 65536 65536 4278190080 = some canvas ∧
        canvas.width = 65536 ∧ canvas.height = 65536 ∧
        canvas.pixels.length = ((65536 : Int) * 65536).toNat ∧
        (∀ v ∈ canvas.pixels, v = 4278190080) ∧
        canvas.horizon.length = (65536 : Int).toNat := by
  refine ⟨by decide, by decide, ?_⟩
  rintro ⟨canvas, hinit, _⟩
  have hnone : image_init Image.fresh 65536 65536 4278190080 = none := by decide
  rw [hnone] at hinit
  cases hinit

/-- C10, amended: for every `width >= 0` and `height >= 0` whose product is at
most `INT_MAX`, and every background colour, `image_init` (on any image,
whatever its vectors held) yields a canvas with the given width and height, a
pixel buffer of length exactly `width * height` in which every entry is the
background colour, and a horizon buffer of length exactly `width`. -/
theorem image_init_spec (image : Image) (width height : Int) (background : Nat)
    (hw : 0 ≤ width) (hh : 0 ≤ height) (hfit : width * height ≤ INT_MAX) :
    ∃ canvas, image_init image width height background = some canvas ∧
      canvas.width = width ∧ canvas.height = height ∧
      canvas.pixels.length = (width * height).toNat ∧
      (∀ v ∈ canvas.pixels, v = background) ∧
      canvas.horizon.length = width.toNat ∧ canvas.IsCanvas := by
  obtain ⟨canvas, hinit, hcw, hch, hpix, hhor⟩ :=
    image_init_result image width height background hw hh hfit
  refine ⟨canvas, hinit, hcw, hch, by simp [hpix], ?_, hhor, ?_⟩
  · intro v hv
    rw [hpix] at hv
    exact (List.mem_replicate.1 hv).2
  · exact ⟨by rw [hcw]; exact hw, by rw [hcw, hch]; exact hfit,
      by rw [hpix, hcw, hch]; simp, by rw [hhor, hcw]⟩

/-- Witness of the amended C10: a 3x2 canvas from an image that held other data. -/
theorem image_init_spec_witness :
    ∃ canvas, image_init { pixels := [1, 2], horizon := [5], width := 9, height := 9 } 3 2 7
        = some canvas ∧
      canvas.width = 3 ∧ canvas.height = 2 ∧
      canvas.pixels.length = ((3 : Int) * 2).toNat ∧
      (∀ v ∈ canvas.pixels, v = 7) ∧
      canvas.horizon.length = (3 : Int).toNat ∧ canvas.IsCanvas :=
  image_init_spec { pixels := [1, 2], horizon := [5], width := 9, height := 9 } 3 2 7
    (by decide) (by decide) (by decide)

/-! ## The horizon as the running column minimum -/

/-- The running minimum never exceeds its start value. -/
theorem column_minimum_le_start (c : Int) (calls : List (Int × Int × Nat)) :
    ∀ start : Int, column_minimum start c calls ≤ start := by
  induction calls with
  | nil => intro start; exact le_refl _
  | cons call rest ih =>
    intro start
    obtain ⟨x, y, color⟩ := call
    simp only [column_minimum]
    by_cases hx : x = c
    · simp only [if_pos hx]
      exact le_trans (ih _) (min_le_left _ _)
    · simp only [if_neg hx]
      exact ih _

/-- The running minimum is at most the row of every call in the column. -/
theorem column_minimum_le_row (c : Int) (calls : List (Int × Int × Nat)) :
    ∀ start : Int, ∀ call ∈ calls, call.1 = c → column_minimum start c calls ≤ call.2.1 := by
  induction calls with
  | nil => intro start call hmem; cases hmem
  | cons first rest ih =>
    intro start call hmem hcol
    obtain ⟨x, y, color⟩ := first
    simp only [column_minimum]
    rcases List.mem_cons.1 hmem with heq | hrest
    · subst heq
      simp only at hcol
      simp only [if_pos hcol]
      exact le_trans (column_minimum_le_start c rest _) (min_le_right _ _)
    · exact ih _ call hrest hcol

/-- The running minimum is attained: it is the start value or the row of a call
in the column. -/
theorem column_minimum_attained (c : Int) (calls : List (Int × Int × Nat)) :
    ∀ start : Int, column_minimum start c calls = start ∨
      ∃ call ∈ calls, call.1 = c ∧ column_minimum start c calls = call.2.1 := by
  induction calls with
  | nil => intro start; exact Or.inl rfl
  | cons first rest ih =>
    intro start
    obtain ⟨x, y, color⟩ := first
    simp only [column_minimum]
    by_cases hx : x = c
    · simp only [if_pos hx]
      rcases ih (min start y) with h | ⟨call, hmem, hcol, hval⟩
      · rcases min_choice start y with hm | hm
        · left; rw [h, hm]
        · right
          exact ⟨(x, y, color), List.mem_cons_self _ _, hx, by rw [h, hm]⟩
      · right
        exact ⟨call, List.mem_cons_of_mem _ hmem, hcol, hval⟩
    · simp only [if_neg hx]
      rcases ih start with h | ⟨call, hmem, hcol, hval⟩
      · exact Or.inl h
      · right
        exact ⟨call, List.mem_cons_of_mem _ hmem, hcol, hval⟩

/-- One call on a canvas takes `horizon[c]` from `v` to `min v y` when the call
is in column `c`, and leaves it at `v` otherwise. -/
theorem draw_pixel_column_step (image : Image) (hc : image.IsCanvas) (x y c v : Int)
    (color : Nat) (hc0 : 0 ≤ c) (hv : image.horizon[c.toNat]? = some v) :
    ∃ image1, image_draw_pixel image x y color = some image1 ∧
      image1.horizon[c.toNat]? = some (if x = c then min v y else v) := by
  have hcl : c.toNat < image.horizon.length := (List.getElem?_eq_some.1 hv).1
  have hset : 0 ≤ x → (∃ h, image.horizon[x.toNat]? = some h ∧ y < h) →
      (image.horizon.set x.toNat y)[c.toNat]? = some (if x = c then min v y else v) := by
    intro hx0 ⟨h, hget, hy⟩
    by_cases hxc : x = c
    · subst hxc
      rw [hv] at hget
      cases hget
      simp only [if_true, List.getElem?_set_self hcl]
      rw [min_eq_right (le_of_lt hy)]
    · have hne : x.toNat ≠ c.toNat := by omega
      simp only [if_neg hxc, List.getElem?_set_ne hne, hv]
  rcases draw_pixel_cases image hc x y color with ⟨hcond, hr⟩ | ⟨hcond, hr⟩ | ⟨hcond, hr⟩
  · refine ⟨image, hr, ?_⟩
    by_cases hxc : x = c
    · subst hxc
      rcases hcond with h1 | h1 | ⟨h, hget, hle⟩
      · omega
      · have := hc.2.2.2
        omega
      · rw [hv] at hget
        cases hget
        simp only [if_true, hv, min_eq_left hle]
    · simp only [if_neg hxc, hv]
  · exact ⟨_, hr, hset hcond.1 hcond.2.2.1⟩
  · exact ⟨_, hr, hset hcond.1 hcond.2.2.1⟩

/-- A sequence of calls on a canvas takes `horizon[c]` from `v` to the running
column minimum started at `v`. -/
theorem draw_calls_column_minimum (c : Int) (hc0 : 0 ≤ c) (calls : List (Int × Int × Nat)) :
    ∀ (image : Image) (v : Int), image.IsCanvas → image.horizon[c.toNat]? = some v →
      ∃ image1, draw_calls image calls = some image1 ∧
        image1.horizon[c.toNat]? = some (column_minimum v c calls) := by
  induction calls with
  | nil => intro image v _ hv; exact ⟨image, rfl, hv⟩
  | cons call rest ih =>
    intro image v hc hv
    obtain ⟨x, y, color⟩ := call
    obtain ⟨mid, hmid, hvm⟩ := draw_pixel_column_step image hc x y c v color hc0 hv
    obtain ⟨mid2, hmid2, hcm, _⟩ := draw_pixel_canvas image hc x y color
    rw [hmid] at hmid2
    cases hmid2
    obtain ⟨last, hlast, hvl⟩ := ih mid _ hcm hvm
    exact ⟨last, by simp only [draw_calls, hmid, hlast], by simpa only [column_minimum] using hvl⟩

/-- Two points of a canvas with the same pixel index are the same point. -/
theorem index_injective {x y x1 y1 w : Int} (hx0 : 0 ≤ x) (hxw : x < w) (hy0 : 0 ≤ y)
    (hx1 : 0 ≤ x1) (hxw1 : x1 < w) (hy1 : 0 ≤ y1)
    (h : (y * w + x).toNat = (y1 * w + x1).toNat) : x = x1 ∧ y = y1 := by
  have h1 : 0 ≤ y * w := Int.mul_nonneg hy0 (by omega)
  have h2 : 0 ≤ y1 * w := Int.mul_nonneg hy1 (by omega)
  have heq : y * w + x = y1 * w + x1 := by omega
  have hmod : (y * w + x) % w = (y1 * w + x1) % w := by rw [heq]
  have e1 : (y * w + x) % w = x := by
    rw [Int.add_comm, Int.add_mul_emod_self]
    exact Int.emod_eq_of_lt hx0 hxw
  have e2 : (y1 * w + x1) % w = x1 := by
    rw [Int.add_comm, Int.add_mul_emod_self]
    exact Int.emod_eq_of_lt hx1 hxw1
  have hx : x = x1 := by rw [e1, e2] at hmod; exact hmod
  refine ⟨hx, ?_⟩
  subst hx
  have hw : w ≠ 0 := by omega
  have : y * w = y1 * w := by omega
  exact Int.eq_of_mul_eq_mul_right hw this

/-- A pixel that a sequence of calls on a canvas has changed was plotted by one
of the calls, at a point of the canvas with that pixel index. -/
theorem draw_calls_pixel_changed (calls : List (Int × Int × Nat)) :
    ∀ (image image1 : Image), image.IsCanvas → draw_calls image calls = some image1 →
      ∀ i : Nat, image1.pixels[i]? ≠ image.pixels[i]? →
        ∃ call ∈ calls, 0 ≤ call.1 ∧ call.1 < image.width ∧ 0 ≤ call.2.1 ∧
          call.2.1 < image.height ∧ i = (call.2.1 * image.width + call.1).toNat := by
  induction calls with
  | nil =>
    intro image image1 _ hr i hne
    simp only [draw_calls, Option.some.injEq] at hr
    subst hr
    exact absurd rfl hne
  | cons call rest ih =>
    intro image image1 hc hr i hne
    obtain ⟨x, y, color⟩ := call
    obtain ⟨mid, hmid, hcm, hw, hh, _, _⟩ := draw_pixel_canvas image hc x y color
    simp only [draw_calls, hmid] at hr
    by_cases hsame : mid.pixels[i]? = image.pixels[i]?
    · rw [← hsame] at hne
      obtain ⟨d, hd, h1, h2, h3, h4, h5⟩ := ih mid image1 hcm hr i hne
      rw [hw] at h2 h5
      rw [hh] at h4
      exact ⟨d, List.mem_cons_of_mem _ hd, h1, h2, h3, h4, h5⟩
    · rcases draw_pixel_cases image hc x y color with ⟨_, hr1⟩ | ⟨_, hr1⟩ | ⟨hcond, hr1⟩
      · rw [hmid] at hr1
        cases hr1
        exact absurd rfl hsame
      · rw [hmid] at hr1
        cases hr1
        exact absurd rfl hsame
      · rw [hmid] at hr1
        cases hr1
        refine ⟨(x, y, color), List.mem_cons_self _ _, hcond.1, hcond.2.1, hcond.2.2.2.1,
          hcond.2.2.2.2.1, ?_⟩
        by_contra hi
        exact hsame (List.getElem?_set_ne (Ne.symm hi))

/-- C17: the horizon is the running column minimum. On a canvas, after
`image_reset_horizon`, every finite sequence of `image_draw_pixel` calls
returns, and for every column `c` in `[0, width)` the final `horizon[c]` is the
minimum of `height` and the rows `y` of the calls in column `c`: it is at most
`height` (as `calls` is arbitrary, so it is after every prefix of a pass), at
most the row of every call in the column, and it is `height` or one of those
rows. Every pixel `(c, y)` of the canvas that the pass has changed lies at a
row `y` at or below the final `horizon[c]` (`horizon[c] <= y`). -/
theorem horizon_is_column_minimum (image : Image) (hc : image.IsCanvas)
    (calls : List (Int × Int × Nat)) (c : Int) (hc0 : 0 ≤ c) (hcw : c < image.width) :
    ∃ image1, draw_calls (image_reset_horizon image) calls = some image1 ∧
      image1.horizon[c.toNat]? = some (column_minimum image.height c calls) ∧
      column_minimum image.height c calls ≤ image.height ∧
      (∀ call ∈ calls, call.1 = c → column_minimum image.height c calls ≤ call.2.1) ∧
      (column_minimum image.height c calls = image.height ∨
        ∃ call ∈ calls, call.1 = c ∧ column_minimum image.height c calls = call.2.1) ∧
      (∀ y : Int, 0 ≤ y → y < image.height →
        image1.pixels[(y * image.width + c).toNat]? ≠
          image.pixels[(y * image.width + c).toNat]? →
        column_minimum image.height c calls ≤ y) := by
  have hcr := reset_horizon_canvas image hc
  have hlt : c.toNat < image.horizon.length := by
    have := hc.2.2.2
    omega
  have hget : (image_reset_horizon image).horizon[c.toNat]? = some image.height := by
    rw [reset_horizon_eq_replicate]; simp [hlt]
  obtain ⟨image1, hr, hhor⟩ :=
    draw_calls_column_minimum c hc0 calls (image_reset_horizon image) image.height hcr hget
  refine ⟨image1, hr, hhor, column_minimum_le_start c calls _,
    column_minimum_le_row c calls _, column_minimum_attained c calls _, ?_⟩
  intro y hy0 hyh hne
  obtain ⟨d, hd, h1, h2, h3, h4, h5⟩ :=
    draw_calls_pixel_changed calls (image_reset_horizon image) image1 hcr hr _ hne
  have hw : (image_reset_horizon image).width = image.width := rfl
  rw [hw] at h2 h5
  obtain ⟨hxc, hyc⟩ := index_injective hc0 hcw hy0 h1 h2 h3 h5
  rw [hyc]
  exact column_minimum_le_row c calls _ d hd hxc.symm

/-- Witness of C17 on a 2x2 canvas with an occluded horizon: after the reset
the calls `(0, 1)`, `(1, 0)`, `(0, -3)`, `(0, 0)` leave `horizon[0] = -3`. -/
theorem horizon_is_column_minimum_witness :
    ∃ image1, draw_calls (image_reset_horizon
        { pixels := [7, 7, 7, 7], horizon := [-9, 0], width := 2, height := 2 })
        [(0, 1, 9), (1, 0, 9), (0, -3, 9), (0, 0, 9)] = some image1 ∧
      image1.horizon[(0 : Int).toNat]? =
        some (column_minimum 2 0 [(0, 1, 9), (1, 0, 9), (0, -3, 9), (0, 0, 9)]) ∧
      column_minimum 2 0 [(0, 1, 9), (1, 0, 9), (0, -3, 9), (0, 0, 9)] ≤ 2 ∧
      (∀ call ∈ [((0 : Int), (1 : Int), 9), (1, 0, 9), (0, -3, 9), (0, 0, 9)], call.1 = 0 →
        column_minimum 2 0 [(0, 1, 9), (1, 0, 9), (0, -3, 9), (0, 0, 9)] ≤ call.2.1) ∧
      (column_minimum 2 0 [(0, 1, 9), (1, 0, 9), (0, -3, 9), (0, 0, 9)] = 2 ∨
        ∃ call ∈ [((0 : Int), (1 : Int), 9), (1, 0, 9), (0, -3, 9), (0, 0, 9)], call.1 = 0 ∧
          column_minimum 2 0 [(0, 1, 9), (1, 0, 9), (0, -3, 9), (0, 0, 9)] = call.2.1) ∧
      (∀ y : Int, 0 ≤ y → y < 2 →
        image1.pixels[(y * 2 + 0).toNat]? ≠ [7, 7, 7, 7][(y * 2 + 0).toNat]? →
        column_minimum 2 0 [(0, 1, 9), (1, 0, 9), (0, -3, 9), (0, 0, 9)] ≤ y) :=
  horizon_is_column_minimum
    { pixels := [7, 7, 7, 7], horizon := [-9, 0], width := 2, height := 2 } (by decide)
    [(0, 1, 9), (1, 0, 9), (0, -3, 9), (0, 0, 9)] 0 (by decide) (by decide)

/-! ## Drawing without a reset -/

/-- The horizon `image_init` returns is the old horizon resized to `width`. -/
theorem image_init_horizon (image canvas : Image) (width height : Int) (background : Nat)
    (hinit : image_init image width height background = some canvas) :
    canvas.horizon = vector_resize image.horizon width.toNat 0 := by
  unfold image_init at hinit
  split at hinit
  · cases hinit
  · split at hinit
    · cases hinit
    · split at hinit
      · cases hinit
      · cases hinit
        rfl

/-- On a canvas whose horizon entries are all at most 0, a call plots nothing
and leaves the horizon entries at most 0. -/
theorem draw_pixel_low_horizon (image : Image) (hc : image.IsCanvas)
    (hlow : ∀ v ∈ image.horizon, v ≤ 0) (x y : Int) (color : Nat) :
    ∃ image1, image_draw_pixel image x y color = some image1 ∧ image1.IsCanvas ∧
      image1.pixels = image.pixels ∧ ∀ v ∈ image1.horizon, v ≤ 0 := by
  rcases draw_pixel_cases image hc x y color with ⟨_, hr⟩ | ⟨hcond, hr⟩ | ⟨hcond, hr⟩
  · exact ⟨image, hr, hc, rfl, hlow⟩
  · obtain ⟨h, hget, hy⟩ := hcond.2.2.1
    have hh : h ≤ 0 := hlow h (List.getElem?_mem hget)
    refine ⟨_, hr, by simpa [Image.IsCanvas] using hc, rfl, ?_⟩
    intro v hv
    rcases List.mem_or_eq_of_mem_set hv with hin | heq
    · exact hlow v hin
    · omega
  · obtain ⟨h, hget, hy⟩ := hcond.2.2.1
    have hh : h ≤ 0 := hlow h (List.getElem?_mem hget)
    omega

/-- On a canvas whose horizon entries are all at most 0, a sequence of calls
returns with the pixels it started from. -/
theorem draw_calls_low_horizon (calls : List (Int × Int × Nat)) :
    ∀ image : Image, image.IsCanvas → (∀ v ∈ image.horizon, v ≤ 0) →
      ∃ image1, draw_calls image calls = some image1 ∧ image1.pixels = image.pixels := by
  induction calls with
  | nil => intro image _ _; exact ⟨image, rfl, rfl⟩
  | cons call rest ih =>
    intro image hc hlow
    obtain ⟨x, y, color⟩ := call
    obtain ⟨mid, hmid, hcm, hpix, hlowm⟩ := draw_pixel_low_horizon image hc hlow x y color
    obtain ⟨last, hlast, hpl⟩ := ih mid hcm hlowm
    exact ⟨last, by simp only [draw_calls, hmid, hlast], by rw [hpl, hpix]⟩

/-- C19, as the claim states it, fails: `image_init` resizes the horizon
vector and does not clear it. Called on a 1x1 image that was in use, with
`horizon = [1]`, it returns a canvas whose horizon entry is still 1, not 0; on
that canvas, with no `image_reset_horizon`, the call `(0, 0, 9)` is accepted
and plots 9 over the background 0. -/
theorem init_keeps_old_horizon_counterexample :
    ∃ canvas image1,
      image_init { pixels := [9], horizon := [1], width := 1, height := 1 } 1 1 0
        = some canvas ∧
      canvas.horizon = [1] ∧ canvas.pixels = [0] ∧
      draw_calls canvas [(0, 0, 9)] = some image1 ∧ image1.pixels = [9] :=
  ⟨{ pixels := [0], horizon := [1], width := 1, height := 1 },
   { pixels := [9], horizon := [0], width := 1, height := 1 },
   by decide, rfl, rfl, by decide, rfl⟩

/-- C19, amended: drawing without a reset plots nothing on a canvas made from
a default-constructed `Image`. When `image_init` is called on an `Image` whose
horizon vector is empty (as in `main`), every horizon entry of the canvas it returns is 0, the value-
initialised content of the resized vector; and on that canvas, with no
`image_reset_horizon`, every sequence of `image_draw_pixel` calls returns with
the pixel buffer unchanged, every entry the background colour. -/
theorem no_reset_plots_nothing (image canvas : Image) (width height : Int)
    (background : Nat) (calls : List (Int × Int × Nat))
    (hempty : image.horizon = [])
    (hinit : image_init image width height background = some canvas) :
    canvas.horizon = List.replicate width.toNat 0 ∧
    (∀ v ∈ canvas.horizon, v = 0) ∧
    ∃ image1, draw_calls canvas calls = some image1 ∧
      image1.pixels = canvas.pixels ∧
      image1.pixels = List.replicate (width * height).toNat background ∧
      ∀ p ∈ image1.pixels, p = background := by
  have hc := image_init_canvas image canvas width height background hinit
  have hpix := (image_init_some image canvas width height background hinit).2.2.1
  have hhor : canvas.horizon = List.replicate width.toNat 0 := by
    rw [image_init_horizon image canvas width height background hinit, hempty]
    simp [vector_resize]
  have hzero : ∀ v ∈ canvas.horizon, v = 0 := by
    intro v hv
    rw [hhor] at hv
    exact (List.mem_replicate.1 hv).2
  obtain ⟨image1, hr, hp⟩ :=
    draw_calls_low_horizon calls canvas hc (fun v hv => le_of_eq (hzero v hv))
  refine ⟨hhor, hzero, image1, hr, hp, by rw [hp, hpix], ?_⟩
  intro p hpm
  rw [hp, hpix] at hpm
  exact (List.mem_replicate.1 hpm).2

/-- Witness of the amended C19: a 2x2 canvas from `Image.fresh`, then calls at rows 0, 1
and -1 without a reset. -/
theorem no_reset_plots_nothing_witness :
    ({ pixels := [3, 3, 3, 3], horizon := [0, 0], width := 2, height := 2 } : Image).horizon
        = List.replicate (2 : Int).toNat 0 ∧
    (∀ v ∈ ({ pixels := [3, 3, 3, 3], horizon := [0, 0], width := 2, height := 2 }
        : Image).horizon, v = 0) ∧
    ∃ image1, draw_calls { pixels := [3, 3, 3, 3], horizon := [0, 0], width := 2, height := 2 }
        [(0, 0, 9), (1, 1, 9), (0, -1, 9)] = some image1 ∧
      image1.pixels =
        ({ pixels := [3, 3, 3, 3], horizon := [0, 0], width := 2, height := 2 } : Image).pixels ∧
      image1.pixels = List.replicate ((2 : Int) * 2).toNat 3 ∧
      ∀ p ∈ image1.pixels, p = 3 :=
  no_reset_plots_nothing Image.fresh
    { pixels := [3, 3, 3, 3], horizon := [0, 0], width := 2, height := 2 } 2 2 3
    [(0, 0, 9), (1, 1, 9), (0, -1, 9)] (by decide) (by decide)

/-! ## The shape invariant and bounds safety -/

/-- The shape predicate together with `width * height <= INT_MAX` makes a canvas. -/
theorem shape_fit_canvas (image : Image) (hs : image.Shape)
    (hfit : image.width * image.height ≤ INT_MAX) : image.IsCanvas := by
  obtain ⟨hp, hh, hw, _⟩ := hs
  exact ⟨hw, hfit, by omega, by omega⟩

/-- A canvas of non-negative height has the shape predicate. -/
theorem canvas_shape (image : Image) (hc : image.IsCanvas) (hh : 0 ≤ image.height) :
    image.Shape := by
  obtain ⟨hw, _, hp, hhor⟩ := hc
  have hprod : 0 ≤ image.width * image.height := Int.mul_nonneg hw hh
  exact ⟨by omega, by omega, hw, hh⟩

/-- A visible point of the canvas whose `int` index overflows has no result. -/
theorem draw_pixel_index_overflow (image : Image) (x y h : Int) (color : Nat)
    (hx0 : 0 ≤ x) (hxw : x < image.width) (hh : image.horizon[x.toNat]? = some h)
    (hy : y < h) (hy0 : 0 ≤ y) (hyh : y < image.height)
    (hov : INT_MAX < y * image.width + x) :
    image_draw_pixel image x y color = none := by
  have hx : ¬ (x < 0 ∨ x ≥ image.width) := by omega
  have hyn : ¬ y ≥ h := by omega
  have hoff : ¬ (y < 0 ∨ y ≥ image.height) := by omega
  simp only [image_draw_pixel, if_neg hx, hh, if_neg hyn, if_neg hoff, if_pos hov]

/-- C18, as the claim states it, fails in two places. The predicate does not
hold after `image_init(image, 0, -1, 0)`, which returns with `height = -1`.
And the predicate does not keep `image_draw_pixel` inside its buffers: on a
65536x65536 image with 2^32 pixels and a reset horizon, which has the shape,
the call `(0, 32768)` computes the `int` index `32768 * 65536 + 0 = 2^31`,
above `INT_MAX`, and has no result. -/
theorem shape_alone_counterexample :
    (∃ canvas, image_init Image.fresh 0 (-1) 0 = some canvas ∧ ¬ canvas.Shape) ∧
    (({ pixels := List.replicate 4294967296 0, horizon := List.replicate 65536 65536,
        width := 65536, height := 65536 } : Image).Shape ∧
      image_draw_pixel
        { pixels := List.replicate 4294967296 0, horizon := List.replicate 65536 65536,
          width := 65536, height := 65536 } 0 32768 1 = none) := by
  refine ⟨⟨{ pixels := [], horizon := [], width := 0, height := -1 }, by decide, by decide⟩,
    ⟨?_, ?_, by decide, by decide⟩, ?_⟩
  · show ((List.replicate 4294967296 0).length : Int) = 65536 * 65536
    rw [List.length_replicate]
    decide
  · show ((List.replicate 65536 (65536 : Int)).length : Int) = 65536
    rw [List.length_replicate]
    decide
  · have hget : (List.replicate 65536 (65536 : Int))[(0 : Int).toNat]? = some 65536 := by
      rw [List.getElem?_replicate]
      decide
    exact draw_pixel_index_overflow _ 0 32768 65536 1 (by decide) (by decide) hget
      (by decide) (by decide) (by decide) (by decide)

/-- C18, amended: bounds safety under the shape invariant with the `int`
bound. The predicate (`pixels.length = width * height`, `horizon.length =
width`, `width >= 0`, `height >= 0`, and `width * height <= INT_MAX`) holds
after `image_init` called with `width >= 0`, `height >= 0` and `width * height
<= INT_MAX`, and `image_draw_pixel` and `image_reset_horizon` preserve it.
Under it, for all integers `x` and `y`, `image_draw_pixel` returns (no branch
without a result is taken): a column `x` it reads or writes in the horizon is
an index of the horizon, and the index `y * width + x` it writes in the pixels
is non-negative, at most `INT_MAX` and an index of the pixel buffer. -/
theorem shape_invariant_bounds_safety :
    (∀ (image : Image) (width height : Int) (background : Nat),
      0 ≤ width → 0 ≤ height → width * height ≤ INT_MAX →
      ∃ canvas, image_init image width height background = some canvas ∧
        canvas.Shape ∧ canvas.width * canvas.height ≤ INT_MAX) ∧
    (∀ (image : Image), image.Shape → image.width * image.height ≤ INT_MAX →
      ∀ (x y : Int) (color : Nat),
        (∃ image1, image_draw_pixel image x y color = some image1 ∧
          image1.Shape ∧ image1.width * image1.height ≤ INT_MAX) ∧
        (0 ≤ x → x < image.width → x.toNat < image.horizon.length) ∧
        (0 ≤ x → x < image.width → 0 ≤ y → y < image.height →
          0 ≤ y * image.width + x ∧ y * image.width + x ≤ INT_MAX ∧
          (y * image.width + x).toNat < image.pixels.length)) ∧
    (∀ (image : Image), image.Shape → image.width * image.height ≤ INT_MAX →
      (image_reset_horizon image).Shape ∧
      (image_reset_horizon image).width * (image_reset_horizon image).height ≤ INT_MAX) := by
  refine ⟨?_, ?_, ?_⟩
  · intro image width height background hw hh hfit
    obtain ⟨canvas, hinit, hcw, hch, _, _⟩ :=
      image_init_result image width height background hw hh hfit
    have hc := image_init_canvas image canvas width height background hinit
    exact ⟨canvas, hinit, canvas_shape canvas hc (by rw [hch]; exact hh),
      by rw [hcw, hch]; exact hfit⟩
  · intro image hs hfit x y color
    have hc := shape_fit_canvas image hs hfit
    obtain ⟨image1, hr, hc1, hw1, hh1, _, _⟩ := draw_pixel_canvas image hc x y color
    refine ⟨⟨image1, hr, canvas_shape image1 hc1 (by rw [hh1]; exact hs.2.2.2),
      by rw [hw1, hh1]; exact hfit⟩, ?_, ?_⟩
    · intro hx0 hxw
      have := hs.2.1
      omega
    · intro hx0 hxw hy0 hyh
      have hidx := index_lt_area hx0 hxw hy0 hyh
      have := hs.1
      refine ⟨hidx.1, by omega, by omega⟩
  · intro image hs hfit
    have hc := reset_horizon_canvas image (shape_fit_canvas image hs hfit)
    exact ⟨canvas_shape _ hc hs.2.2.2, hfit⟩

/-- Witness of the amended C18 on a 2x2 canvas: the canvas from `image_init`,
the call `(1, 1)` on it after a reset, and the reset itself. -/
theorem shape_invariant_bounds_safety_witness :
    (∃ canvas, image_init Image.fresh 2 2 7 = some canvas ∧
      canvas.Shape ∧ canvas.width * canvas.height ≤ INT_MAX) ∧
    (∃ image1, image_draw_pixel
        { pixels := [7, 7, 7, 7], horizon := [2, 2], width := 2, height := 2 } 1 1 9
          = some image1 ∧
      image1.Shape ∧ image1.width * image1.height ≤ INT_MAX) ∧
    ((image_reset_horizon
        { pixels := [7, 7, 7, 7], horizon := [0, 0], width := 2, height := 2 }).Shape) :=
  ⟨shape_invariant_bounds_safety.1 Image.fresh 2 2 7 (by decide) (by decide) (by decide),
   (shape_invariant_bounds_safety.2.1
      { pixels := [7, 7, 7, 7], horizon := [2, 2], width := 2, height := 2 }
      (by decide) (by decide) 1 1 9).1,
   (shape_invariant_bounds_safety.2.2
      { pixels := [7, 7, 7, 7], horizon := [0, 0], width := 2, height := 2 }
      (by decide) (by decide)).1⟩

/-! ## The TGA and BMP byte streams -/

/-- The buffer of a vector of `n` pixels has `4 * n` bytes. -/
theorem buffer_bytes_length (pixels : List Nat) :
    (buffer_bytes pixels).length = 4 * pixels.length := by
  induction pixels with
  | nil => rfl
  | cons p rest ih =>
    simp only [buffer_bytes, uint32_bytes, List.length_append, List.length_cons,
      List.length_nil, ih]
    omega

/-- Taking as many bytes as the buffer has takes the whole buffer. -/
theorem buffer_bytes_take_all (pixels : List Nat) :
    (buffer_bytes pixels).take (pixels.length * sizeof_pixel) = buffer_bytes pixels := by
  apply List.take_of_length_le
  rw [buffer_bytes_length, sizeof_pixel]
  omega

/-- Byte `k` of pixel `i` sits at offset `4 * i + k` of the buffer. -/
theorem buffer_bytes_getElem (pixels : List Nat) :
    ∀ (i p : Nat), pixels[i]? = some p →
      (buffer_bytes pixels)[4 * i]? = some (p % 256) ∧
      (buffer_bytes pixels)[4 * i + 1]? = some (p / 256 % 256) ∧
      (buffer_bytes pixels)[4 * i + 2]? = some (p / 65536 % 256) ∧
      (buffer_bytes pixels)[4 * i + 3]? = some (p / 16777216 % 256) := by
  induction pixels with
  | nil => intro i p h; simp at h
  | cons q rest ih =>
    intro i p h
    cases i with
    | zero =>
      simp only [List.getElem?_cons_zero, Option.some.injEq] at h
      subst h
      simp [buffer_bytes, uint32_bytes]
    | succ j =>
      simp only [List.getElem?_cons_succ] at h
      obtain ⟨h0, h1, h2, h3⟩ := ih j p h
      have e0 : 4 * (j + 1) = 4 * j + 4 := by ring
      have e1 : 4 * (j + 1) + 1 = 4 * j + 1 + 4 := by ring
      have e2 : 4 * (j + 1) + 2 = 4 * j + 2 + 4 := by ring
      have e3 : 4 * (j + 1) + 3 = 4 * j + 3 + 4 := by ring
      simp only [buffer_bytes, uint32_bytes, List.cons_append, List.nil_append, e0, e1, e2, e3,
        List.getElem?_cons_succ]
      exact ⟨h0, h1, h2, h3⟩

/-- The TGA stream is the 18 header bytes followed by the pixel buffer. -/
theorem image_save_tga_eq (image : Image) :
    image_save_tga image =
      [0, 0, 2, 0, 0, 0, 0, 0, 0, 0, 0, 0,
        to_uint16 image.width % 256, to_uint16 image.width / 256 % 256,
        to_uint16 image.height % 256, to_uint16 image.height / 256 % 256, 32, 40] ++
      buffer_bytes image.pixels := by
  rw [image_save_tga, buffer_bytes_take_all]
  simp [TGAHeader.bytes, TGAHeader.zero, uint8_bytes, uint16_bytes]

/-- C11: the TGA layout. For a canvas with `0 <= width, height < 65536` and
`width * height` pixels, the stream `image_save_tga` writes is the 18-byte
header `0, 0, 2, 0,0,0,0,0, 0,0, 0,0`, the width and the height as two
little-endian bytes each, `32`, `0b00101000`, followed at once by the pixels
in buffer order, four little-endian bytes each (byte `k` of pixel `i` at
offset `18 + 4 * i + k`); its length is `18 + 4 * width * height`; and for
1920x1080 the dimension bytes are `0x80 0x07 0x38 0x04`. -/
theorem tga_layout (image : Image)
    (hw0 : 0 ≤ image.width) (hw : image.width < 65536)
    (hh0 : 0 ≤ image.height) (hh : image.height < 65536)
    (hlen : (image.pixels.length : Int) = image.width * image.height) :
    image_save_tga image =
      [0, 0, 2, 0, 0, 0, 0, 0, 0, 0, 0, 0,
        image.width.toNat % 256, image.width.toNat / 256,
        image.height.toNat % 256, image.height.toNat / 256, 32, 0b00101000] ++
      buffer_bytes image.pixels ∧
    (image_save_tga image).length = 18 + 4 * (image.width * image.height).toNat ∧
    (∀ (i p : Nat), image.pixels[i]? = some p →
      (image_save_tga image)[18 + 4 * i]? = some (p % 256) ∧
      (image_save_tga image)[18 + 4 * i + 1]? = some (p / 256 % 256) ∧
      (image_save_tga image)[18 + 4 * i + 2]? = some (p / 65536 % 256) ∧
      (image_save_tga image)[18 + 4 * i + 3]? = some (p / 16777216 % 256)) ∧
    (image.width = 1920 → image.height = 1080 →
      ((image_save_tga image).drop 12).take 4 = [0x80, 0x07, 0x38, 0x04]) := by
  have ew : to_uint16 image.width = image.width.toNat := by
    unfold to_uint16
    omega
  have eh : to_uint16 image.height = image.height.toNat := by
    unfold to_uint16
    omega
  have ew2 : image.width.toNat / 256 % 256 = image.width.toNat / 256 := by omega
  have eh2 : image.height.toNat / 256 % 256 = image.height.toNat / 256 := by omega
  have heq := image_save_tga_eq image
  rw [ew, eh, ew2, eh2] at heq
  refine ⟨heq, ?_, ?_, ?_⟩
  · rw [heq, List.length_append, buffer_bytes_length]
    simp only [List.length_cons, List.length_nil]
    omega
  · intro i p hp
    obtain ⟨h0, h1, h2, h3⟩ := buffer_bytes_getElem image.pixels i p hp
    have a0 : 18 + 4 * i = 4 * i + 18 := by ring
    have a1 : 18 + 4 * i + 1 = 4 * i + 1 + 18 := by ring
    have a2 : 18 + 4 * i + 2 = 4 * i + 2 + 18 := by ring
    have a3 : 18 + 4 * i + 3 = 4 * i + 3 + 18 := by ring
    rw [heq, a3, a2, a1, a0]
    simp only [List.cons_append, List.nil_append, List.getElem?_cons_succ]
    exact ⟨h0, h1, h2, h3⟩
  · intro h1 h2
    rw [heq, h1, h2]
    rfl

/-- Witness of C11 on a 2x1 canvas with the pixels `0xff000000`, `0xffffffff`. -/
theorem tga_layout_witness :
    image_save_tga
        { pixels := [4278190080, 4294967295], horizon := [1, 1], width := 2, height := 1 } =
      [0, 0, 2, 0, 0, 0, 0, 0, 0, 0, 0, 0, 2, 0, 1, 0, 32, 40,
        0, 0, 0, 255, 255, 255, 255, 255] :=
  (tga_layout
    { pixels := [4278190080, 4294967295], horizon := [1, 1], width := 2, height := 1 }
    (by decide) (by decide) (by decide) (by decide) (by decide)).1

/-- The BMP stream is the 14 bytes of the file header, the 40 bytes of the
info header, and the first `image_length` bytes of the pixel buffer, where
`image_length` is `4 * pixels.size()` as a `uint32_t`. -/
theorem image_save_bmp_eq (image : Image) :
    image_save_bmp image =
      [Char.toNat 'B', Char.toNat 'M'] ++
      uint32_bytes (to_uint32 ((54 + to_uint32 ((image.pixels.length * 4 : Nat) : Int) : Nat) : Int)) ++
      [0, 0, 0, 0] ++ uint32_bytes 54 ++
      (uint32_bytes 40 ++ uint32_bytes (to_uint32 image.width) ++
        uint32_bytes (to_uint32 (-image.height)) ++ [1, 0] ++ [32, 0] ++ uint32_bytes 0 ++
        uint32_bytes (to_uint32 ((image.pixels.length * 4 : Nat) : Int)) ++
        uint32_bytes 0 ++ uint32_bytes 0 ++ uint32_bytes 0 ++ uint32_bytes 0) ++
      (buffer_bytes image.pixels).take (to_uint32 ((image.pixels.length * 4 : Nat) : Int)) := by
  simp [image_save_bmp, BMPFileHeader.bytes, BMPInfoHeader.bytes, BMPFileHeader.zero,
    BMPInfoHeader.zero, uint16_bytes, uint32_bytes, to_uint16, to_uint32,
    sizeof_BMPFileHeader, sizeof_BMPInfoHeader, sizeof_pixel]

/-- C12: the BMP layout. For a canvas with `width * height` pixels and
`54 + 4 * width * height < 2^32`, the stream `image_save_bmp` writes is the
14-byte file header (`B`, `M`; the file size `54 + 4 * width * height`; two
reserved fields 0; the pixel-data offset 54), the 40-byte info header (header
length 40; the width; the height field holding `-height` as a `uint32_t`,
which is `2^32 - height` for `height > 0`; planes 1; bit depth 32; compression
0; image data length `4 * width * height`; four zero fields), each field
little-endian, followed by the pixels in buffer order, four little-endian
bytes each (byte `k` of pixel `i` at offset `54 + 4 * i + k`). -/
theorem bmp_layout (image : Image)
    (hlen : (image.pixels.length : Int) = image.width * image.height)
    (hsize : 54 + 4 * (image.width * image.height) < 4294967296) :
    image_save_bmp image =
      ([Char.toNat 'B', Char.toNat 'M'] ++
        uint32_bytes (54 + 4 * (image.width * image.height)).toNat ++
        uint16_bytes 0 ++ uint16_bytes 0 ++ uint32_bytes 54) ++
      (uint32_bytes 40 ++ uint32_bytes (to_uint32 image.width) ++
        uint32_bytes (to_uint32 (-image.height)) ++ uint16_bytes 1 ++ uint16_bytes 32 ++
        uint32_bytes 0 ++ uint32_bytes (4 * (image.width * image.height)).toNat ++
        uint32_bytes 0 ++ uint32_bytes 0 ++ uint32_bytes 0 ++ uint32_bytes 0) ++
      buffer_bytes image.pixels ∧
    ([Char.toNat 'B', Char.toNat 'M'] ++
        uint32_bytes (54 + 4 * (image.width * image.height)).toNat ++
        uint16_bytes 0 ++ uint16_bytes 0 ++ uint32_bytes 54).length = 14 ∧
    (uint32_bytes 40 ++ uint32_bytes (to_uint32 image.width) ++
        uint32_bytes (to_uint32 (-image.height)) ++ uint16_bytes 1 ++ uint16_bytes 32 ++
        uint32_bytes 0 ++ uint32_bytes (4 * (image.width * image.height)).toNat ++
        uint32_bytes 0 ++ uint32_bytes 0 ++ uint32_bytes 0 ++ uint32_bytes 0).length = 40 ∧
    (image_save_bmp image).length = 54 + 4 * (image.width * image.height).toNat ∧
    (0 ≤ image.width → image.width ≤ INT_MAX → to_uint32 image.width = image.width.toNat) ∧
    (0 < image.height → image.height ≤ INT_MAX →
      to_uint32 (-image.height) = 4294967296 - image.height.toNat) ∧
    (image.height ≤ 0 → INT_MIN ≤ image.height →
      to_uint32 (-image.height) = (-image.height).toNat) ∧
    (∀ (i p : Nat), image.pixels[i]? = some p →
      (image_save_bmp image)[54 + 4 * i]? = some (p % 256) ∧
      (image_save_bmp image)[54 + 4 * i + 1]? = some (p / 256 % 256) ∧
      (image_save_bmp image)[54 + 4 * i + 2]? = some (p / 65536 % 256) ∧
      (image_save_bmp image)[54 + 4 * i + 3]? = some (p / 16777216 % 256)) := by
  have hL : to_uint32 ((image.pixels.length * 4 : Nat) : Int) = image.pixels.length * 4 := by
    unfold to_uint32
    omega
  have hL2 : image.pixels.length * 4 = (4 * (image.width * image.height)).toNat := by omega
  have hF : to_uint32 ((54 + image.pixels.length * 4 : Nat) : Int)
      = (54 + 4 * (image.width * image.height)).toNat := by
    unfold to_uint32
    omega
  have htake : (buffer_bytes image.pixels).take (image.pixels.length * 4)
      = buffer_bytes image.pixels := buffer_bytes_take_all image.pixels
  have heq := image_save_bmp_eq image
  rw [hL, hF, htake, hL2] at heq
  have heq2 : image_save_bmp image =
      ([Char.toNat 'B', Char.toNat 'M'] ++
        uint32_bytes (54 + 4 * (image.width * image.height)).toNat ++
        uint16_bytes 0 ++ uint16_bytes 0 ++ uint32_bytes 54) ++
      (uint32_bytes 40 ++ uint32_bytes (to_uint32 image.width) ++
        uint32_bytes (to_uint32 (-image.height)) ++ uint16_bytes 1 ++ uint16_bytes 32 ++
        uint32_bytes 0 ++ uint32_bytes (4 * (image.width * image.height)).toNat ++
        uint32_bytes 0 ++ uint32_bytes 0 ++ uint32_bytes 0 ++ uint32_bytes 0) ++
      buffer_bytes image.pixels := by
    rw [heq]
    simp [uint16_bytes, uint32_bytes]
  refine ⟨heq2, by simp [uint16_bytes, uint32_bytes], by simp [uint16_bytes, uint32_bytes],
    ?_, ?_, ?_, ?_, ?_⟩
  · rw [heq2]
    simp only [List.length_append, buffer_bytes_length, uint16_bytes, uint32_bytes,
      List.length_cons, List.length_nil]
    omega
  · intro h0 h1
    unfold to_uint32
    simp only [INT_MAX] at h1
    omega
  · intro h0 h1
    unfold to_uint32
    simp only [INT_MAX] at h1
    omega
  · intro h0 h1
    unfold to_uint32
    simp only [INT_MIN] at h1
    omega
  · intro i p hp
    obtain ⟨h0, h1, h2, h3⟩ := buffer_bytes_getElem image.pixels i p hp
    have a0 : 54 + 4 * i = 4 * i + 54 := by ring
    have a1 : 54 + 4 * i + 1 = 4 * i + 1 + 54 := by ring
    have a2 : 54 + 4 * i + 2 = 4 * i + 2 + 54 := by ring
    have a3 : 54 + 4 * i + 3 = 4 * i + 3 + 54 := by ring
    rw [heq2, a3, a2, a1, a0]
    simp only [uint16_bytes, uint32_bytes, List.cons_append, List.nil_append,
      List.append_assoc, List.getElem?_cons_succ]
    exact ⟨h0, h1, h2, h3⟩

/-- Witness of C12 on a 2x1 canvas with the pixels `0xff000000`, `0xffffffff`:
the file size is 62, the height field is `2^32 - 1`. -/
theorem bmp_layout_witness :
    image_save_bmp
        { pixels := [4278190080, 4294967295], horizon := [1, 1], width := 2, height := 1 } =
      [66, 77, 62, 0, 0, 0, 0, 0, 0, 0, 54, 0, 0, 0,
        40, 0, 0, 0, 2, 0, 0, 0, 255, 255, 255, 255, 1, 0, 32, 0, 0, 0, 0, 0, 8, 0, 0, 0,
        0, 0, 0, 0, 0, 0, 0, 0, 0, 0, 0, 0, 0, 0, 0, 0,
        0, 0, 0, 255, 255, 255, 255, 255] :=
  (bmp_layout
    { pixels := [4278190080, 4294967295], horizon := [1, 1], width := 2, height := 1 }
    (by decide) (by decide)).1

/-! ## The format round trip -/

/-- Reading the buffer of a vector of 32-bit pixels back as little-endian
words gives the pixels. -/
theorem words_le_buffer_bytes (pixels : List Nat) (hpix : ∀ p ∈ pixels, p < 4294967296) :
    words_le (buffer_bytes pixels) = pixels := by
  induction pixels with
  | nil => rfl
  | cons p rest ih =>
    have hp : p < 4294967296 := hpix p (List.mem_cons_self _ _)
    have hrest : ∀ q ∈ rest, q < 4294967296 := fun q hq => hpix q (List.mem_cons_of_mem _ hq)
    have hb : buffer_bytes (p :: rest) =
        p % 256 :: p / 256 % 256 :: p / 65536 % 256 :: p / 16777216 % 256 ::
          buffer_bytes rest := rfl
    rw [hb, words_le, ih hrest]
    congr 1
    omega

/-- The pixel bytes of the BMP stream start at offset 54, where the stream
stores its offset, and are the first `image_length` bytes of the buffer. -/
theorem image_save_bmp_payload (image : Image) :
    le32_at (image_save_bmp image) 10 = 54 ∧
    (image_save_bmp image).drop 54 =
      (buffer_bytes image.pixels).take (to_uint32 ((image.pixels.length * 4 : Nat) : Int)) := by
  rw [image_save_bmp_eq]
  constructor
  · simp [le32_at, uint32_bytes]
  · simp [uint32_bytes]

/-- The dimension fields of the BMP stream. -/
theorem image_save_bmp_dims (image : Image) :
    le32_at (image_save_bmp image) 18 = to_uint32 image.width % 256 +
        256 * (to_uint32 image.width / 256 % 256) +
        65536 * (to_uint32 image.width / 65536 % 256) +
        16777216 * (to_uint32 image.width / 16777216 % 256) ∧
    le32_at (image_save_bmp image) 22 = to_uint32 (-image.height) % 256 +
        256 * (to_uint32 (-image.height) / 256 % 256) +
        65536 * (to_uint32 (-image.height) / 65536 % 256) +
        16777216 * (to_uint32 (-image.height) / 16777216 % 256) := by
  rw [image_save_bmp_eq]
  constructor
  · simp [le32_at, uint32_bytes]
  · simp [le32_at, uint32_bytes]

/-- The pixel bytes of the TGA stream start at offset 18 and are the buffer. -/
theorem image_save_tga_payload (image : Image) :
    (image_save_tga image).drop 18 = buffer_bytes image.pixels := by
  rw [image_save_tga_eq]
  simp

/-- C13, as the claim states it, fails: `large_canvas` has `0 < width, height <
65536` and `width * height` pixels, all 32-bit values, but `4 * 2^30` bytes of
pixels is `2^32`, which the `uint32_t` field `image_length` holds as 0, and
`image_save_bmp` writes `image_length` bytes of the buffer: none. The BMP
stream decodes to an empty pixel buffer, not to the canvas, and its payload is
not the payload of the TGA stream. -/
theorem round_trip_counterexample :
    (0 < large_canvas.width ∧ large_canvas.width < 65536 ∧
      0 < large_canvas.height ∧ large_canvas.height < 65536 ∧
      (large_canvas.pixels.length : Int) = large_canvas.width * large_canvas.height ∧
      ∀ p ∈ large_canvas.pixels, p < 4294967296) ∧
    (image_save_bmp large_canvas).drop 54 = [] ∧
    (bmp_decode (image_save_bmp large_canvas)).2.2 = [] ∧
    bmp_decode (image_save_bmp large_canvas)
      ≠ (large_canvas.width, large_canvas.height, large_canvas.pixels) ∧
    (image_save_tga large_canvas).drop 18 ≠ (image_save_bmp large_canvas).drop 54 := by
  have hlen : large_canvas.pixels.length = 1073741824 := by
    show (List.replicate 1073741824 4278190080).length = 1073741824
    rw [List.length_replicate]
  have hzero : to_uint32 ((large_canvas.pixels.length * 4 : Nat) : Int) = 0 := by
    rw [hlen]
    unfold to_uint32
    norm_num
  obtain ⟨hoff, hpay⟩ := image_save_bmp_payload large_canvas
  rw [hzero, List.take_zero] at hpay
  have hdec : (bmp_decode (image_save_bmp large_canvas)).2.2 = [] := by
    simp only [bmp_decode, hoff, hpay]
    rfl
  have hne : large_canvas.pixels ≠ [] := by
    intro h
    rw [h] at hlen
    cases hlen
  refine ⟨⟨by decide, by decide, by decide, by decide, ?_, ?_⟩, hpay, hdec, ?_, ?_⟩
  · rw [hlen]
    decide
  · intro p hp
    have : p = 4278190080 := (List.mem_replicate.1 hp).2
    omega
  · intro h
    have h2 := congrArg (fun t => t.2.2) h
    simp only at h2
    rw [hdec] at h2
    exact hne h2.symm
  · rw [hpay, image_save_tga_payload]
    intro h
    have h2 := congrArg List.length h
    rw [buffer_bytes_length, hlen] at h2
    cases h2

/-- C13, amended: the format round trip. For a canvas with `0 < width, height
< 65536`, with `width * height` pixels, each a 32-bit value, and with
`4 * width * height < 2^32` (the pixel bytes fit the `uint32_t` length field
of the BMP header), decoding the TGA stream and decoding the BMP stream both
give the width, the height and the pixel buffer of the canvas, and the two
pixel payloads (after byte 18 and after byte 54) are the same bytes, those of
the pixel buffer. -/
theorem format_round_trip (image : Image)
    (hw0 : 0 < image.width) (hw : image.width < 65536)
    (hh0 : 0 < image.height) (hh : image.height < 65536)
    (hlen : (image.pixels.length : Int) = image.width * image.height)
    (hsize : 4 * (image.width * image.height) < 4294967296)
    (hpix : ∀ p ∈ image.pixels, p < 4294967296) :
    tga_decode (image_save_tga image) = (image.width, image.height, image.pixels) ∧
    bmp_decode (image_save_bmp image) = (image.width, image.height, image.pixels) ∧
    (image_save_tga image).drop 18 = (image_save_bmp image).drop 54 ∧
    (image_save_tga image).drop 18 = buffer_bytes image.pixels := by
  have hL : to_uint32 ((image.pixels.length * 4 : Nat) : Int) = image.pixels.length * 4 := by
    unfold to_uint32
    omega
  have htake : (buffer_bytes image.pixels).take (image.pixels.length * 4)
      = buffer_bytes image.pixels := buffer_bytes_take_all image.pixels
  obtain ⟨hoff, hpay⟩ := image_save_bmp_payload image
  rw [hL, htake] at hpay
  obtain ⟨hbw, hbh⟩ := image_save_bmp_dims image
  have htp := image_save_tga_payload image
  have hwords := words_le_buffer_bytes image.pixels hpix
  refine ⟨?_, ?_, by rw [htp, hpay], htp⟩
  · have h12 : le16_at (image_save_tga image) 12 = to_uint16 image.width % 256 +
        256 * (to_uint16 image.width / 256 % 256) := by
      rw [image_save_tga_eq]; simp [le16_at]
    have h14 : le16_at (image_save_tga image) 14 = to_uint16 image.height % 256 +
        256 * (to_uint16 image.height / 256 % 256) := by
      rw [image_save_tga_eq]; simp [le16_at]
    have ew : ((le16_at (image_save_tga image) 12 : Nat) : Int) = image.width := by
      rw [h12]; unfold to_uint16; omega
    have eh : ((le16_at (image_save_tga image) 14 : Nat) : Int) = image.height := by
      rw [h14]; unfold to_uint16; omega
    simp only [tga_decode, ew, eh, htp, hwords]
  · have ew : ((le32_at (image_save_bmp image) 18 : Nat) : Int) = image.width := by
      rw [hbw]; unfold to_uint32; omega
    have eh : -signed32 (le32_at (image_save_bmp image) 22) = image.height := by
      have e : le32_at (image_save_bmp image) 22 = 4294967296 - image.height.toNat := by
        rw [hbh]; unfold to_uint32; omega
      rw [e]
      unfold signed32
      have hbig : ¬ (4294967296 - image.height.toNat < 2147483648) := by omega
      rw [if_neg hbig]
      omega
    simp only [bmp_decode, ew, eh, hoff, hpay, hwords]

/-- Witness of the amended C13 on a 2x1 canvas. -/
theorem format_round_trip_witness :
    tga_decode (image_save_tga
        { pixels := [4278190080, 4294967295], horizon := [1, 1], width := 2, height := 1 })
      = (2, 1, [4278190080, 4294967295]) ∧
    bmp_decode (image_save_bmp
        { pixels := [4278190080, 4294967295], horizon := [1, 1], width := 2, height := 1 })
      = (2, 1, [4278190080, 4294967295]) :=
  ⟨(format_round_trip
      { pixels := [4278190080, 4294967295], horizon := [1, 1], width := 2, height := 1 }
      (by decide) (by decide) (by decide) (by decide) (by decide) (by decide) (by decide)).1,
   (format_round_trip
      { pixels := [4278190080, 4294967295], horizon := [1, 1], width := 2, height := 1 }
      (by decide) (by decide) (by decide) (by decide) (by decide) (by decide) (by decide)).2.1⟩

/-! ## The scalar field -/

/-- In the real-number model `hypot` vanishes at the origin only. -/
theorem real_hypot_eq_zero (x y : ℝ) : real_math.hypot x y = 0 ↔ x = 0 ∧ y = 0 := by
  show Real.sqrt (x ^ 2 + y ^ 2) = 0 ↔ x = 0 ∧ y = 0
  have hx : 0 ≤ x ^ 2 := sq_nonneg x
  have hy : 0 ≤ y ^ 2 := sq_nonneg y
  rw [Real.sqrt_eq_zero (add_nonneg hx hy)]
  constructor
  · intro h
    have hx0 : x ^ 2 = 0 := by linarith
    have hy0 : y ^ 2 = 0 := by linarith
    exact ⟨pow_eq_zero_iff (two_ne_zero) |>.1 hx0, pow_eq_zero_iff (two_ne_zero) |>.1 hy0⟩
  · rintro ⟨rfl, rfl⟩
    norm_num

/-- C14: the scalar field. `myfunc(0, 0)` is `1` exactly, by the `r = 0` branch
of `sinc` and without a division: this holds for every number type and every
`hypot` with `hypot(0, 0) = 0`, and so in the real-number model. In the
real-number model, for every `(x, y)` other than `(0, 0)`, the radius
`r = sqrt(x^2 + y^2)` is not zero and `myfunc(x, y) = sin(r) / r`. The function
is total: it has a value at every argument. -/
theorem myfunc_spec :
    (∀ (F : Type) [Field F] [DecidableEq F] (m : CMath F),
      m.hypot 0 0 = 0 → myfunc m 0 0 = 1) ∧
    myfunc real_math 0 0 = 1 ∧
    (∀ x y : ℝ, (x, y) ≠ (0, 0) →
      Real.sqrt (x ^ 2 + y ^ 2) ≠ 0 ∧
      myfunc real_math x y = Real.sin (Real.sqrt (x ^ 2 + y ^ 2)) / Real.sqrt (x ^ 2 + y ^ 2)) := by
  have hgen : ∀ (F : Type) [Field F] [DecidableEq F] (m : CMath F),
      m.hypot 0 0 = 0 → myfunc m 0 0 = 1 := by
    intro F _ _ m h0
    simp only [myfunc, sinc, h0, if_true]
  refine ⟨hgen, hgen ℝ real_math ((real_hypot_eq_zero 0 0).2 ⟨rfl, rfl⟩), ?_⟩
  intro x y hxy
  have hne : real_math.hypot x y ≠ 0 := by
    intro h
    obtain ⟨hx, hy⟩ := (real_hypot_eq_zero x y).1 h
    exact hxy (by rw [hx, hy])
  refine ⟨hne, ?_⟩
  simp only [myfunc, sinc, if_neg hne]
  rfl

/-- Witness of C14: at the origin, and at `(3, 4)`. -/
theorem myfunc_spec_witness :
    myfunc real_math 0 0 = 1 ∧
    myfunc real_math 3 4 = Real.sin (Real.sqrt (3 ^ 2 + 4 ^ 2)) / Real.sqrt (3 ^ 2 + 4 ^ 2) :=
  ⟨myfunc_spec.1 ℝ real_math (by simp [real_math]),
   (myfunc_spec.2.2 3 4 (by simp)).2⟩

/-- On `(0, π)` the sine lies above `r * cos r`. -/
theorem mul_cos_lt_sin (r : ℝ) (h0 : 0 < r) (hpi : r < Real.pi) :
    r * Real.cos r < Real.sin r := by
  by_cases hr : r < Real.pi / 2
  · have hcos : 0 < Real.cos r := Real.cos_pos_of_mem_Ioo ⟨by linarith, hr⟩
    have ht := Real.lt_tan h0 hr
    rw [Real.tan_eq_sin_div_cos, lt_div_iff₀ hcos] at ht
    exact ht
  · have hcos : Real.cos r ≤ 0 :=
      Real.cos_nonpos_of_pi_div_two_le_of_le (by linarith) (by linarith)
    have hsin : 0 < Real.sin r := Real.sin_pos_of_pos_of_lt_pi h0 hpi
    have : r * Real.cos r ≤ 0 := mul_nonpos_of_nonneg_of_nonpos h0.le hcos
    linarith

/-- The quotient `sin r / r` is strictly decreasing on `(0, π)`: its derivative
`(r * cos r - sin r) / r^2` is negative there. -/
theorem sin_div_strictAntiOn :
    StrictAntiOn (fun r : ℝ => Real.sin r / r) (Set.Ioo 0 Real.pi) := by
  apply strictAntiOn_of_deriv_neg (convex_Ioo 0 Real.pi)
  · intro r hr
    have hne : r ≠ 0 := ne_of_gt hr.1
    exact (Real.continuous_sin.continuousAt.div continuousAt_id hne).continuousWithinAt
  · intro r hr
    rw [interior_Ioo] at hr
    have hne : r ≠ 0 := ne_of_gt hr.1
    have hd : HasDerivAt (fun r : ℝ => Real.sin r / r)
        ((Real.cos r * r - Real.sin r * 1) / r ^ 2) r :=
      (Real.hasDerivAt_sin r).div (hasDerivAt_id r) hne
    rw [hd.deriv]
    have hpos : 0 < r ^ 2 := by positivity
    have hnum : Real.cos r * r - Real.sin r * 1 < 0 := by
      have := mul_cos_lt_sin r hr.1 hr.2
      linarith
    exact div_neg_of_neg_of_pos hnum hpos

/-- The quotient `sin r / r` tends to 1 as `r` tends to 0, `r ≠ 0`: it is the
slope of the sine at 0. -/
theorem sin_div_tendsto_one :
    Filter.Tendsto (fun r : ℝ => Real.sin r / r) (nhdsWithin 0 {0}ᶜ) (nhds 1) := by
  have h := hasDerivAt_iff_tendsto_slope.1 (Real.hasDerivAt_sin 0)
  rw [Real.cos_zero] at h
  refine h.congr (fun r => ?_)
  simp [slope_def_field]

/-- Away from 0 the real-number `sinc` is `sin r / r`. -/
theorem real_sinc_of_ne (r : ℝ) (hr : r ≠ 0) : sinc real_math r = Real.sin r / r := by
  simp only [sinc, if_neg hr]
  rfl

/-- C15: continuity of the scalar field from below. In the real-number model
of `sinc`, with `delta = π > 0`: for all `0 < r1 < r2 < π`,
`sinc(r2) < sinc(r1) < 1 = sinc(0)`, and `sinc(r)` tends to 1 as `r` tends to
0 (through all `r`, so also through `r > 0`). -/
theorem sinc_decreasing_below_one :
    0 < Real.pi ∧
    (∀ r1 r2 : ℝ, 0 < r1 → r1 < r2 → r2 < Real.pi →
      sinc real_math r2 < sinc real_math r1 ∧ sinc real_math r1 < 1) ∧
    sinc real_math 0 = 1 ∧
    Filter.Tendsto (sinc real_math) (nhds 0) (nhds 1) ∧
    Filter.Tendsto (sinc real_math) (nhdsWithin 0 (Set.Ioi 0)) (nhds 1) := by
  have h0 : sinc real_math 0 = 1 := by simp only [sinc, if_true]
  have hpunct : Filter.Tendsto (sinc real_math) (nhdsWithin 0 {0}ᶜ) (nhds 1) := by
    refine sin_div_tendsto_one.congr' ?_
    refine eventually_nhdsWithin_of_forall (fun r hr => ?_)
    exact (real_sinc_of_ne r hr).symm
  have hcont : Filter.Tendsto (sinc real_math) (nhds 0) (nhds 1) := by
    have hw : ContinuousWithinAt (sinc real_math) {0}ᶜ 0 := by
      unfold ContinuousWithinAt
      rw [h0]
      exact hpunct
    have hc : ContinuousAt (sinc real_math) 0 := continuousWithinAt_compl_self.1 hw
    unfold ContinuousAt at hc
    rw [h0] at hc
    exact hc
  refine ⟨Real.pi_pos, ?_, h0, hcont, hcont.mono_left nhdsWithin_le_nhds⟩
  intro r1 r2 hr1 h12 hr2
  have hne1 : r1 ≠ 0 := ne_of_gt hr1
  have hne2 : r2 ≠ 0 := ne_of_gt (lt_trans hr1 h12)
  rw [real_sinc_of_ne r1 hne1, real_sinc_of_ne r2 hne2]
  refine ⟨sin_div_strictAntiOn ⟨hr1, lt_trans h12 hr2⟩ ⟨lt_trans hr1 h12, hr2⟩ h12, ?_⟩
  rw [div_lt_one hr1]
  exact Real.sin_lt hr1

/-- Witness of C15 at `r1 = 1`, `r2 = 2`. -/
theorem sinc_decreasing_below_one_witness :
    sinc real_math 2 < sinc real_math 1 ∧ sinc real_math 1 < 1 :=
  sinc_decreasing_below_one.2.1 1 2 (by norm_num) (by norm_num)
    (by linarith [Real.pi_gt_three])

/-! ## The projector -/

/-- In the real-number model the constant `Pi` is `π`. -/
theorem real_Pi : Pi real_math = Real.pi := Real.arccos_neg_one

/-- Truncation toward zero of a real number keeps the sign and moves by less
than 1 toward 0. -/
theorem trunc_toward_zero_bounds (t : ℝ) :
    (0 ≤ t → 0 ≤ trunc_toward_zero t ∧ (trunc_toward_zero t : ℝ) ≤ t ∧
      t < (trunc_toward_zero t : ℝ) + 1) ∧
    (t ≤ 0 → trunc_toward_zero t ≤ 0 ∧ t ≤ (trunc_toward_zero t : ℝ) ∧
      (trunc_toward_zero t : ℝ) < t + 1) := by
  constructor
  · intro h
    simp only [trunc_toward_zero, if_pos h]
    exact ⟨Int.floor_nonneg.2 h, Int.floor_le t, Int.lt_floor_add_one t⟩
  · intro h
    by_cases h0 : 0 ≤ t
    · have ht : t = 0 := le_antisymm h h0
      subst ht
      simp [trunc_toward_zero]
    · simp only [trunc_toward_zero, if_neg h0]
      refine ⟨?_, Int.le_ceil t, Int.ceil_lt_add_one t⟩
      exact Int.ceil_le.2 (by simpa using h)

/-- Truncation toward zero of a real number `n + f` with `n` a natural number
and `0 <= f < 1` is `n`. -/
theorem trunc_toward_zero_nat_add (n : Nat) (f : ℝ) (h0 : 0 ≤ f) (h1 : f < 1) :
    trunc_toward_zero ((n : ℝ) + f) = n := by
  have hn : (0 : ℝ) ≤ (n : ℝ) := Nat.cast_nonneg n
  have hpos : (0 : ℝ) ≤ (n : ℝ) + f := by linarith
  simp only [trunc_toward_zero, if_pos hpos]
  rw [Int.floor_eq_iff]
  constructor
  · push_cast; linarith
  · push_cast; linarith

/-- Truncation toward zero of a real number `-(n + f)` with `n` a natural
number and `0 <= f < 1` is `-n`. -/
theorem trunc_toward_zero_neg_nat_add (n : Nat) (f : ℝ) (h0 : 0 ≤ f) (h1 : f < 1) :
    trunc_toward_zero (-((n : ℝ) + f)) = -(n : Int) := by
  have hn : (0 : ℝ) ≤ (n : ℝ) := Nat.cast_nonneg n
  by_cases hz : 0 ≤ -((n : ℝ) + f)
  · have hf : f = 0 := by linarith
    have hn0 : (n : ℝ) = 0 := by linarith
    have hn1 : n = 0 := by exact_mod_cast hn0
    subst hf
    subst hn1
    simp [trunc_toward_zero]
  · simp only [trunc_toward_zero, if_neg hz]
    rw [Int.ceil_eq_iff]
    constructor
    · push_cast; linarith
    · push_cast; linarith

/-- A `double` whose truncation is an `int` converts to that `int`. -/
theorem double_to_int_of_range (t : ℝ) (hlo : INT_MIN ≤ trunc_toward_zero t)
    (hhi : trunc_toward_zero t ≤ INT_MAX) : double_to_int t = some (trunc_toward_zero t) := by
  simp only [double_to_int, if_pos (And.intro hlo hhi)]

/-- The function `convert_isometry` in the real-number model, its constants
spelled out. -/
theorem convert_isometry_real (x y z : ℝ) :
    convert_isometry real_math x y z =
      match double_to_int (960 - 20 * x * Real.cos (Real.pi / 6) +
          20 * y * Real.cos (Real.pi / 6)),
        double_to_int (540 + 20 * x * Real.sin (Real.pi / 6) +
          20 * y * Real.sin (Real.pi / 6) - 350 * z) with
      | some px, some py => some (px, py)
      | _, _ => none := by
  have hw : ((IMAGE_WIDTH / 2 : Int) : ℝ) = 960 := by norm_num [IMAGE_WIDTH]
  have hh : ((IMAGE_HEIGHT / 2 : Int) : ℝ) = 540 := by norm_num [IMAGE_HEIGHT]
  simp only [convert_isometry, real_Pi, hw, hh, XSCALE, YSCALE, ZSCALE]
  rfl

/-- A point over the origin at height `z` projects to column 960 and to the
row `540 - 350 * z` truncated, when that is an `int`. -/
theorem convert_isometry_origin (z : ℝ) (py : Int)
    (hpy : trunc_toward_zero (540 - 350 * z) = py)
    (hlo : INT_MIN ≤ py) (hhi : py ≤ INT_MAX) :
    convert_isometry real_math 0 0 z = some (960, py) := by
  have hx : (960 : ℝ) - 20 * 0 * Real.cos (Real.pi / 6) + 20 * 0 * Real.cos (Real.pi / 6)
      = ((960 : Nat) : ℝ) + 0 := by norm_num
  have hy : (540 : ℝ) + 20 * 0 * Real.sin (Real.pi / 6) + 20 * 0 * Real.sin (Real.pi / 6)
      - 350 * z = 540 - 350 * z := by ring
  have htx : trunc_toward_zero (((960 : Nat) : ℝ) + 0) = ((960 : Nat) : Int) :=
    trunc_toward_zero_nat_add 960 0 (le_refl 0) (by norm_num)
  rw [convert_isometry_real, hx, hy,
    double_to_int_of_range _ (by rw [htx]; decide) (by rw [htx]; decide),
    double_to_int_of_range _ (by rw [hpy]; exact hlo) (by rw [hpy]; exact hhi), htx, hpy]
  rfl

/-- The column value of a point over the origin truncates to 960. -/
theorem origin_column_trunc :
    trunc_toward_zero ((960 : ℝ) - 20 * 0 * Real.cos (Real.pi / 6) +
      20 * 0 * Real.cos (Real.pi / 6)) = 960 := by
  have e : (960 : ℝ) - 20 * 0 * Real.cos (Real.pi / 6) + 20 * 0 * Real.cos (Real.pi / 6)
      = ((960 : Nat) : ℝ) + 0 := by norm_num
  rw [e]
  exact trunc_toward_zero_nat_add 960 0 (le_refl 0) (by norm_num)

/-- The row value of the surface peak `(0, 0, 1)` truncates to 190. -/
theorem peak_row_trunc :
    trunc_toward_zero ((540 : ℝ) + 20 * 0 * Real.sin (Real.pi / 6) +
      20 * 0 * Real.sin (Real.pi / 6) - 350 * 1) = 190 := by
  have e : (540 : ℝ) + 20 * 0 * Real.sin (Real.pi / 6) + 20 * 0 * Real.sin (Real.pi / 6)
      - 350 * 1 = ((190 : Nat) : ℝ) + 0 := by norm_num
  rw [e]
  exact trunc_toward_zero_nat_add 190 0 (le_refl 0) (by norm_num)

/-- C16, as the claim states it, fails: the surface point over
`(x, y) = (10^9, 0)` has the column value `960 - 20 * 10^9 * cos(π/6)`, below
`-10^10`, whose truncation is below `INT_MIN`; the conversion `int(...)` is
undefined there and `convert_isometry` returns no pair `(px, py)`. -/
theorem convert_isometry_range_counterexample :
    trunc_toward_zero ((960 : ℝ) - 20 * 1000000000 * Real.cos (Real.pi / 6) +
      20 * 0 * Real.cos (Real.pi / 6)) < INT_MIN ∧
    convert_isometry real_math 1000000000 0 (myfunc real_math 1000000000 0) = none := by
  have hcos : (1 : ℝ) / 2 ≤ Real.cos (Real.pi / 6) := by
    rw [Real.cos_pi_div_six]
    have h3 : (1 : ℝ) ≤ Real.sqrt 3 := by
      rw [show (1 : ℝ) = Real.sqrt 1 from Real.sqrt_one.symm]
      exact Real.sqrt_le_sqrt (by norm_num)
    linarith
  have hval : (960 : ℝ) - 20 * 1000000000 * Real.cos (Real.pi / 6) +
      20 * 0 * Real.cos (Real.pi / 6) ≤ ((-9999999040 : Int) : ℝ) := by
    push_cast
    linarith
  have hneg : ¬ (0 : ℝ) ≤ (960 : ℝ) - 20 * 1000000000 * Real.cos (Real.pi / 6) +
      20 * 0 * Real.cos (Real.pi / 6) := by
    intro h
    have : ((-9999999040 : Int) : ℝ) < 0 := by norm_num
    linarith
  have htr : trunc_toward_zero ((960 : ℝ) - 20 * 1000000000 * Real.cos (Real.pi / 6) +
      20 * 0 * Real.cos (Real.pi / 6)) ≤ -9999999040 := by
    simp only [trunc_toward_zero, if_neg hneg]
    exact Int.ceil_le.2 hval
  have hlt : trunc_toward_zero ((960 : ℝ) - 20 * 1000000000 * Real.cos (Real.pi / 6) +
      20 * 0 * Real.cos (Real.pi / 6)) < INT_MIN := by
    simp only [INT_MIN]
    omega
  refine ⟨hlt, ?_⟩
  have hnone : double_to_int ((960 : ℝ) - 20 * 1000000000 * Real.cos (Real.pi / 6) +
      20 * 0 * Real.cos (Real.pi / 6)) = none := by
    have hnot : ¬ (INT_MIN ≤ trunc_toward_zero ((960 : ℝ) -
        20 * 1000000000 * Real.cos (Real.pi / 6) + 20 * 0 * Real.cos (Real.pi / 6)) ∧
        trunc_toward_zero ((960 : ℝ) - 20 * 1000000000 * Real.cos (Real.pi / 6) +
          20 * 0 * Real.cos (Real.pi / 6)) ≤ INT_MAX) := by
      intro h
      omega
    simp only [double_to_int, if_neg hnot]
  rw [convert_isometry_real, hnone]

/-- C16, amended: the projector in the real-number model, with `θ = π/6`. For
every `(x, y, z)` for which the two truncated values are in the range of
`int`, `convert_isometry` returns `px = trunc(960 - 20*x*cos θ + 20*y*cos θ)`
and `py = trunc(540 + 20*x*sin θ + 20*y*sin θ - 350*z)`, where `trunc` is
truncation toward zero: it keeps the sign and moves by less than 1 toward 0.
Results outside the canvas are returned: `(0, 0, -2)` maps to `(960, 1240)` and
`(0, 0, 2)` to `(960, -160)`. Truncation is not rounding to nearest:
`(0, 0, 1/700)`, of row value 539.5, maps to row 539, and `(0, 0, 1083/700)`,
of row value -1.5, to row -1. The surface peak `(0, 0, 1)` maps to
`(960, 190)`, inside the 1920x1080 canvas. -/
theorem convert_isometry_spec :
    (∀ x y z : ℝ,
      INT_MIN ≤ trunc_toward_zero ((960 : ℝ) - 20 * x * Real.cos (Real.pi / 6) +
        20 * y * Real.cos (Real.pi / 6)) →
      trunc_toward_zero ((960 : ℝ) - 20 * x * Real.cos (Real.pi / 6) +
        20 * y * Real.cos (Real.pi / 6)) ≤ INT_MAX →
      INT_MIN ≤ trunc_toward_zero ((540 : ℝ) + 20 * x * Real.sin (Real.pi / 6) +
        20 * y * Real.sin (Real.pi / 6) - 350 * z) →
      trunc_toward_zero ((540 : ℝ) + 20 * x * Real.sin (Real.pi / 6) +
        20 * y * Real.sin (Real.pi / 6) - 350 * z) ≤ INT_MAX →
      convert_isometry real_math x y z =
        some (trunc_toward_zero ((960 : ℝ) - 20 * x * Real.cos (Real.pi / 6) +
            20 * y * Real.cos (Real.pi / 6)),
          trunc_toward_zero ((540 : ℝ) + 20 * x * Real.sin (Real.pi / 6) +
            20 * y * Real.sin (Real.pi / 6) - 350 * z))) ∧
    (∀ t : ℝ,
      (0 ≤ t → 0 ≤ trunc_toward_zero t ∧ (trunc_toward_zero t : ℝ) ≤ t ∧
        t < (trunc_toward_zero t : ℝ) + 1) ∧
      (t ≤ 0 → trunc_toward_zero t ≤ 0 ∧ t ≤ (trunc_toward_zero t : ℝ) ∧
        (trunc_toward_zero t : ℝ) < t + 1)) ∧
    convert_isometry real_math 0 0 (-2) = some (960, 1240) ∧
    convert_isometry real_math 0 0 2 = some (960, -160) ∧
    convert_isometry real_math 0 0 (1 / 700) = some (960, 539) ∧
    convert_isometry real_math 0 0 (1083 / 700) = some (960, -1) ∧
    convert_isometry real_math 0 0 1 = some (960, 190) ∧
    (0 : Int) ≤ 960 ∧ (960 : Int) < IMAGE_WIDTH ∧ (0 : Int) ≤ 190 ∧ (190 : Int) < IMAGE_HEIGHT := by
  refine ⟨?_, trunc_toward_zero_bounds, ?_, ?_, ?_, ?_, ?_, by decide, by decide, by decide,
    by decide⟩
  · intro x y z h1 h2 h3 h4
    rw [convert_isometry_real, double_to_int_of_range _ h1 h2, double_to_int_of_range _ h3 h4]
  · refine convert_isometry_origin (-2) 1240 ?_ (by decide) (by decide)
    have e : (540 : ℝ) - 350 * (-2) = ((1240 : Nat) : ℝ) + 0 := by norm_num
    rw [e]
    exact trunc_toward_zero_nat_add 1240 0 (le_refl 0) (by norm_num)
  · refine convert_isometry_origin 2 (-160) ?_ (by decide) (by decide)
    have e : (540 : ℝ) - 350 * 2 = -(((160 : Nat) : ℝ) + 0) := by norm_num
    rw [e]
    exact trunc_toward_zero_neg_nat_add 160 0 (le_refl 0) (by norm_num)
  · refine convert_isometry_origin (1 / 700) 539 ?_ (by decide) (by decide)
    have e : (540 : ℝ) - 350 * (1 / 700) = ((539 : Nat) : ℝ) + 1 / 2 := by norm_num
    rw [e]
    exact trunc_toward_zero_nat_add 539 (1 / 2) (by norm_num) (by norm_num)
  · refine convert_isometry_origin (1083 / 700) (-1) ?_ (by decide) (by decide)
    have e : (540 : ℝ) - 350 * (1083 / 700) = -(((1 : Nat) : ℝ) + 1 / 2) := by norm_num
    rw [e]
    exact trunc_toward_zero_neg_nat_add 1 (1 / 2) (by norm_num) (by norm_num)
  · refine convert_isometry_origin 1 190 ?_ (by decide) (by decide)
    have e : (540 : ℝ) - 350 * 1 = ((190 : Nat) : ℝ) + 0 := by norm_num
    rw [e]
    exact trunc_toward_zero_nat_add 190 0 (le_refl 0) (by norm_num)

/-- Witness of the amended C16 at the surface peak `(0, 0, 1)`. -/
theorem convert_isometry_spec_witness :
    convert_isometry real_math 0 0 1 =
      some (trunc_toward_zero ((960 : ℝ) - 20 * 0 * Real.cos (Real.pi / 6) +
          20 * 0 * Real.cos (Real.pi / 6)),
        trunc_toward_zero ((540 : ℝ) + 20 * 0 * Real.sin (Real.pi / 6) +
          20 * 0 * Real.sin (Real.pi / 6) - 350 * 1)) :=
  convert_isometry_spec.1 0 0 1
    (by rw [origin_column_trunc]; decide) (by rw [origin_column_trunc]; decide)
    (by rw [peak_row_trunc]; decide) (by rw [peak_row_trunc]; decide)

end Horizon
